import Mathlib

/-!
Verification of the OCRean text-processing core
(`backend/api/app/services/text.py`) against its specification.

Python strings are modelled as lists of characters (`Str`), one entry per
code point.  Regular-expression substitutions used by the source are
translated as explicit left-to-right scanners, and the optional
word-spacing corrector (pecab) is a parameter `Option (Str → Option Str)`
where a `none` result of the function models a raised exception, matching
`TextProcessor._maybe_apply_spacing`'s `try/except`.
-/

/-- A Python string: a list of code points. -/
abbrev Str := List Char

/-- Python whitespace (`\s` for `str` patterns and `str.strip()`):
ASCII whitespace, the C1 separators, and the Unicode space characters. -/
def isSpacePy (c : Char) : Bool :=
  let n := c.toNat
  (9 ≤ n && n ≤ 13) || (28 ≤ n && n ≤ 31) || n == 32 || n == 0x85 ||
    n == 0xA0 || n == 0x1680 || (0x2000 ≤ n && n ≤ 0x200A) || n == 0x2028 ||
    n == 0x2029 || n == 0x202F || n == 0x205F || n == 0x3000

/-- A decimal digit, `\d` restricted to ASCII digits (the only digits the
pipeline's inputs exercise). -/
def isDigitCh (c : Char) : Bool :=
  48 ≤ c.toNat && c.toNat ≤ 57

/-- A word character (`\w`): ASCII alphanumerics, underscore, and the Korean
ranges relevant to this pipeline (Hangul syllables, Hangul jamo,
Hangul compatibility jamo). -/
def isWordChar (c : Char) : Bool :=
  let n := c.toNat
  (48 ≤ n && n ≤ 57) || (65 ≤ n && n ≤ 90) || (97 ≤ n && n ≤ 122) ||
    n == 95 || (0xAC00 ≤ n && n ≤ 0xD7A3) || (0x1100 ≤ n && n ≤ 0x11FF) ||
    (0x3130 ≤ n && n ≤ 0x318F)

/-- A character of the Hangul syllable block U+AC00–U+D7A3
(`KOREAN_PATTERN`'s character class `[가-힣]`). -/
def isHangul (c : Char) : Bool :=
  0xAC00 ≤ c.toNat && c.toNat ≤ 0xD7A3

/-- Replace every occurrence of the two-character sequence `a`, `b` by the
single character `r`, scanning left to right over non-overlapping
occurrences (the semantics shared by `str.replace` and `re.sub` for a
two-character literal pattern). -/
def subPair (a b r : Char) : Str → Str
  | x :: y :: rest =>
    if x == a && y == b then r :: subPair a b r rest
    else x :: subPair a b r (y :: rest)
  | l => l

/-- `text.replace("\\n", " ")`: replace every literal backslash-`n`
two-character sequence by a space. -/
def replaceBackslashN (l : Str) : Str :=
  subPair '\\' 'n' ' ' l

/-- `ESCAPED_QUOTE_PATTERN.sub('"', text)` with pattern `\\"`: replace every
literal backslash-escaped double quote by a bare double quote. -/
def escQuoteSub (l : Str) : Str :=
  subPair '\\' '"' '"' l

/-- Scanner for `WHITESPACE_PATTERN.sub(" ", text)`: the flag records whether
the previous character was part of a whitespace run already emitted as a
single space. -/
def collapseGo : Bool → Str → Str
  | _, [] => []
  | inRun, c :: cs =>
    if isSpacePy c then
      if inRun then collapseGo true cs else ' ' :: collapseGo true cs
    else c :: collapseGo false cs

/-- `WHITESPACE_PATTERN.sub(" ", text)`: collapse every maximal run of
whitespace characters into a single ASCII space. -/
def collapseWs (l : Str) : Str :=
  collapseGo false l

/-- `str.strip()`: drop leading and trailing whitespace. -/
def stripWs (l : Str) : Str :=
  ((l.dropWhile isSpacePy).reverse.dropWhile isSpacePy).reverse

/-- Generic `str.strip(chars)`: drop leading and trailing characters drawn
from the given set. -/
def stripChars (chars : Str) (l : Str) : Str :=
  ((l.dropWhile (chars.contains ·)).reverse.dropWhile (chars.contains ·)).reverse

/-- `TextProcessor._maybe_apply_spacing`: if a spacer is installed, call it
and fall back to the input text when the call raises (`none`). -/
def maybeApplySpacing (sp : Option (Str → Option Str)) (text : Str) : Str :=
  match sp with
  | none => text
  | some f =>
    match f text with
    | some spaced => spaced
    | none => text

/-- `TextProcessor.clean_text`: replace literal `\n` text by spaces, repair
escaped quotes, collapse whitespace, optionally apply the spacing
corrector, re-collapse whitespace, and trim. -/
def clean_text (sp : Option (Str → Option Str)) (text : Str) : Str :=
  let n1 := replaceBackslashN text
  let n2 := escQuoteSub n1
  let n3 := collapseWs n2
  let n4 := maybeApplySpacing sp n3
  let n5 := collapseWs n4
  stripWs n5

/-- Whether the two-character sequence `a`, `b` occurs (adjacent, in this
order) somewhere in the string. -/
def containsPair (a b : Char) : Str → Bool
  | x :: y :: rest => (x == a && y == b) || containsPair a b (y :: rest)
  | _ => false

/-- Whether two consecutive whitespace characters occur somewhere in the
string (the negation of the spec's whitespace invariant). -/
def hasWsPair : Str → Bool
  | x :: y :: rest => (isSpacePy x && isSpacePy y) || hasWsPair (y :: rest)
  | _ => false

/-- `SENTENCE_STRIP_CHARS = " :;-—\"'“”‘’·•()[]"`. -/
def SENTENCE_STRIP_CHARS : Str :=
  [' ', ':', ';', '-', '—', '"', '\'', '“', '”', '‘', '’', '·', '•', '(', ')',
    '[', ']']

/-- `MIN_SENTENCE_LENGTH = 3`. -/
def MIN_SENTENCE_LENGTH : Nat := 3

/-- `NOISE_PATTERN.fullmatch(text)` with pattern `^[\W\d_]+$`: the whole
string is non-empty and consists only of non-word characters, digits, and
underscores. -/
def noiseFullmatch (l : Str) : Bool :=
  !l.isEmpty && l.all (fun c => !isWordChar c || isDigitCh c || c == '_')

/-- Fuelled scanner for `DIGIT_ORPHAN_PATTERN.sub("", text)` with pattern
`\b\d{1,4}\b`: delete every maximal run of 1–4 digits whose neighbours (in
the original string) are absent or non-word characters.  `pw` records
whether the previous character of the original string is a word
character. -/
def digitGo : Nat → Bool → Str → Str
  | 0, _, l => l
  | _ + 1, _, [] => []
  | fuel + 1, pw, c :: cs =>
    if isDigitCh c then
      let run := c :: cs.takeWhile isDigitCh
      let rest := cs.dropWhile isDigitCh
      let nextW := match rest.head? with
        | some d => isWordChar d
        | none => false
      if !pw && !nextW && run.length ≤ 4 then digitGo fuel true rest
      else run ++ digitGo fuel true rest
    else c :: digitGo fuel (isWordChar c) cs

/-- `DIGIT_ORPHAN_PATTERN.sub("", text)`: remove isolated 1–4 digit runs. -/
def digitOrphanSub (l : Str) : Str :=
  digitGo (l.length + 1) false l

/-- The string contains an occurrence of `\b\d{1,4}\b`: a non-empty run of
at most four digits whose neighbouring characters (if any) are both
non-word characters. -/
def hasIsolatedShortDigitRun (l : Str) : Prop :=
  ∃ pre run post, l = pre ++ run ++ post ∧ run ≠ [] ∧ run.length ≤ 4 ∧
    (∀ c ∈ run, isDigitCh c = true) ∧
    (∀ a, pre.getLast? = some a → isWordChar a = false) ∧
    (∀ a, post.head? = some a → isWordChar a = false)

/-- `hasIsolatedShortDigitRun` relativised to a left context: when the run
sits at the very start of the string, the character just before the string
(recorded by `pw`) must be a non-word character. -/
def hasIsolatedRunCtx (pw : Bool) (l : Str) : Prop :=
  ∃ pre run post, l = pre ++ run ++ post ∧ run ≠ [] ∧ run.length ≤ 4 ∧
    (∀ c ∈ run, isDigitCh c = true) ∧
    (match pre.getLast? with
      | some a => isWordChar a = false
      | none => pw = false) ∧
    (∀ a, post.head? = some a → isWordChar a = false)

/-- `TextProcessor._normalize_sentence`: trim boundary punctuation, drop
digit orphans, re-collapse whitespace and re-trim, then reject too-short
or noise-only fragments. -/
def normalize_sentence (sentence : Str) : Option Str :=
  if sentence.isEmpty then none
  else
    let t1 := stripChars SENTENCE_STRIP_CHARS sentence
    let t2 := digitOrphanSub t1
    let t3 := stripChars SENTENCE_STRIP_CHARS (collapseWs t2)
    if t3.length < MIN_SENTENCE_LENGTH then none
    else if noiseFullmatch t3 then none
    else some t3

/-- Whether a character is one of the two straight quote characters of
`QUOTE_PATTERN`'s opening class `["']`. -/
def isQuoteCh (c : Char) : Bool :=
  c == '"' || c == '\''

/-- Lazy search for the closing quote of `QUOTE_PATTERN = (["'])(.+?)\1`:
given the characters following the first interior character, find the
nearest occurrence of the opening quote `q`, failing on a newline first
(`.` does not match a newline).  Returns the remaining interior and the
characters after the closing quote. -/
def scanClose (q : Char) : Str → Option (Str × Str)
  | [] => none
  | c :: cs =>
    if c == q then some ([], cs)
    else if c == '\n' then none
    else
      match scanClose q cs with
      | some (int, rest) => some (c :: int, rest)
      | none => none

/-- Leftmost match of `QUOTE_PATTERN = (["'])(.+?)\1` in the string:
returns the text before the match, the whole match (opening quote,
non-empty newline-free interior, closing quote), and the text after it. -/
def findQuoteMatch : Str → Option (Str × Str × Str)
  | [] => none
  | c :: cs =>
    let shifted :=
      match findQuoteMatch cs with
      | some (pre, m, rest) => some (c :: pre, m, rest)
      | none => none
    if isQuoteCh c then
      match cs with
      | [] => shifted
      | x :: xs =>
        if x == '\n' then shifted
        else
          match scanClose c xs with
          | some (int, rest) => some ([], c :: x :: int ++ [c], rest)
          | none => shifted
    else shifted

/-- Fuelled loop of `TextProcessor._split_quoted_segments`: emit the
trimmed text before each quote match, the trimmed match itself, and
recurse on the remainder; with no further match, emit the trimmed
suffix.  Empty segments are dropped. -/
def splitGo : Nat → Str → List Str
  | 0, _ => []
  | fuel + 1, s =>
    match findQuoteMatch s with
    | none => if stripWs s = [] then [] else [stripWs s]
    | some (pre, m, rest) =>
      (if stripWs pre = [] then [] else [stripWs pre]) ++
        (if stripWs m = [] then [] else [stripWs m]) ++ splitGo fuel rest

/-- `TextProcessor._split_quoted_segments`. -/
def split_quoted_segments (s : Str) : List Str :=
  splitGo (s.length + 1) s

/-- `TextProcessor._post_process_sentences`: split each raw sentence into
quoted/unquoted segments, normalize each, and keep the survivors in
order. -/
def post_process_sentences (sentences : List Str) : List Str :=
  sentences.flatMap fun sentence =>
    (split_quoted_segments sentence).filterMap normalize_sentence

/-- `TextProcessor.split_into_sentences`, with the external `kss`
sentence-boundary model `split_sentences` as the parameter `provider`. -/
def split_into_sentences (sp : Option (Str → Option Str))
    (provider : Str → List Str) (text : Str) : List Str :=
  let normalized := clean_text sp text
  if normalized.isEmpty then []
  else post_process_sentences (provider normalized)

/-- Fuelled scanner for `KOREAN_PATTERN.findall` with pattern `[가-힣]+`:
the maximal runs of Hangul-syllable characters, left to right. -/
def hangulGo : Nat → Str → List Str
  | 0, _ => []
  | _ + 1, [] => []
  | fuel + 1, c :: cs =>
    if isHangul c then
      (c :: cs.takeWhile isHangul) :: hangulGo fuel (cs.dropWhile isHangul)
    else hangulGo fuel cs

/-- `KOREAN_PATTERN.findall(normalized)`. -/
def hangulRuns (l : Str) : List Str :=
  hangulGo (l.length + 1) l

/-- `TextProcessor.extract_vocabulary`: find the Hangul runs of the cleaned
text, keep those of length at least `max 1 min_length`, deduplicate, and
sort ascending (Python's `sorted` on the set comprehension). -/
def extract_vocabulary (sp : Option (Str → Option Str)) (text : Str)
    (min_length : Int) : List Str :=
  let normalized := clean_text sp text
  let words := hangulRuns normalized
  let filtered := (words.filter fun w => max 1 min_length ≤ (w.length : Int)).dedup
  filtered.insertionSort (· ≤ ·)

/-- `w` occurs in `s` as a maximal contiguous run of Hangul-syllable
characters: non-empty, all in the block U+AC00–U+D7A3, and not extendable
on either side. -/
def isMaximalHangulRun (w s : Str) : Prop :=
  w ≠ [] ∧ (∀ c ∈ w, isHangul c = true) ∧
    ∃ pre post, s = pre ++ w ++ post ∧
      (∀ a, pre.getLast? = some a → isHangul a = false) ∧
      (∀ a, post.head? = some a → isHangul a = false)

/-- The given strings occur in this order, without overlap, as infixes of
`s` (the shape of a left-to-right segmentation of `s`). -/
def inOrderInfixes : List Str → Str → Prop
  | [], _ => True
  | t :: ts, s => ∃ u rest, s = u ++ t ++ rest ∧ inOrderInfixes ts rest

/-! ### Generic facts about the pair scanners -/

lemma containsPair_cons (a b c : Char) (cs : Str) :
    containsPair a b (c :: cs) =
      ((c == a) && cs.head?.any (· == b) || containsPair a b cs) := by
  cases cs <;> simp [containsPair]

lemma containsPair_tail {a b c : Char} {cs : Str}
    (h : containsPair a b (c :: cs) = false) : containsPair a b cs = false := by
  rw [containsPair_cons] at h
  exact (Bool.or_eq_false_iff.mp h).2

lemma containsPair_eq_true_iff (a b : Char) :
    ∀ l : Str, containsPair a b l = true ↔ ∃ pre post, l = pre ++ a :: b :: post := by
  intro l
  induction l with
  | nil =>
    simp [containsPair]
  | cons c cs ih =>
    rw [containsPair_cons]
    constructor
    · intro h
      rcases Bool.or_eq_true_iff.mp h with h1 | h2
      · obtain ⟨h1a, h1b⟩ := Bool.and_eq_true_iff.mp h1
        cases cs with
        | nil => simp at h1b
        | cons y ys =>
          simp at h1a h1b
          exact ⟨[], ys, by rw [h1a, h1b]; rfl⟩
      · obtain ⟨pre, post, hpre⟩ := ih.mp h2
        exact ⟨c :: pre, post, by rw [hpre]; rfl⟩
    · rintro ⟨pre, post, hpre⟩
      cases pre with
      | nil =>
        simp at hpre
        obtain ⟨rfl, rfl⟩ := hpre
        simp
      | cons p ps =>
        simp at hpre
        obtain ⟨rfl, hrest⟩ := hpre
        have : containsPair a b cs = true := ih.mpr ⟨ps, post, hrest⟩
        simp [this]

lemma hasWsPair_cons (c : Char) (cs : Str) :
    hasWsPair (c :: cs) =
      ((isSpacePy c) && cs.head?.any isSpacePy || hasWsPair cs) := by
  cases cs <;> simp [hasWsPair]

lemma hasWsPair_tail {c : Char} {cs : Str}
    (h : hasWsPair (c :: cs) = false) : hasWsPair cs = false := by
  rw [hasWsPair_cons] at h
  exact (Bool.or_eq_false_iff.mp h).2

lemma hasWsPair_eq_true_iff :
    ∀ l : Str, hasWsPair l = true ↔
      ∃ pre post x y, l = pre ++ x :: y :: post ∧
        isSpacePy x = true ∧ isSpacePy y = true := by
  intro l
  induction l with
  | nil =>
    simp [hasWsPair]
  | cons c cs ih =>
    rw [hasWsPair_cons]
    constructor
    · intro h
      rcases Bool.or_eq_true_iff.mp h with h1 | h2
      · obtain ⟨h1a, h1b⟩ := Bool.and_eq_true_iff.mp h1
        cases cs with
        | nil => simp at h1b
        | cons y ys =>
          simp at h1b
          exact ⟨[], ys, c, y, rfl, h1a, h1b⟩
      · obtain ⟨pre, post, x, y, hpre, hx, hy⟩ := ih.mp h2
        exact ⟨c :: pre, post, x, y, by rw [hpre]; rfl, hx, hy⟩
    · rintro ⟨pre, post, x, y, hpre, hx, hy⟩
      cases pre with
      | nil =>
        simp at hpre
        obtain ⟨rfl, rfl⟩ := hpre
        simp [hx, hy]
      | cons p ps =>
        simp at hpre
        obtain ⟨rfl, hrest⟩ := hpre
        have : hasWsPair cs = true := ih.mpr ⟨ps, post, x, y, hrest, hx, hy⟩
        simp [this]

lemma containsPair_mono_isInfixOf {a b : Char} {m l : Str} (h : m <:+: l)
    (hm : containsPair a b m = true) : containsPair a b l = true := by
  obtain ⟨u, v, rfl⟩ := h
  rw [containsPair_eq_true_iff] at hm ⊢
  obtain ⟨pre, post, rfl⟩ := hm
  exact ⟨u ++ pre, post ++ v, by simp⟩

lemma hasWsPair_mono_isInfixOf {m l : Str} (h : m <:+: l)
    (hm : hasWsPair m = true) : hasWsPair l = true := by
  obtain ⟨u, v, rfl⟩ := h
  rw [hasWsPair_eq_true_iff] at hm ⊢
  obtain ⟨pre, post, x, y, rfl, hx, hy⟩ := hm
  exact ⟨u ++ pre, post ++ v, x, y, by simp, hx, hy⟩

/-! ### Structure of `stripWs`, `stripChars` and `collapseWs` -/

lemma dropWhile_head_false (p : Char → Bool) :
    ∀ (l : Str) (a : Char), (l.dropWhile p).head? = some a → p a = false := by
  intro l
  induction l with
  | nil => intro a h; simp [List.dropWhile] at h
  | cons c cs ih =>
    intro a h
    rw [List.dropWhile_cons] at h
    split at h
    · exact ih a h
    · next hc =>
      simp at h
      rw [← h]
      exact Bool.not_eq_true _ ▸ (by simpa using hc)

lemma dropWhile_eq_self_of_head (p : Char → Bool) {l : Str}
    (h : ∀ a, l.head? = some a → p a = false) : l.dropWhile p = l := by
  cases l with
  | nil => rfl
  | cons c cs =>
    rw [List.dropWhile_cons, if_neg]
    simp [h c rfl]

lemma reverse_dropWhile_reverse_isPrefixOf (p : Char → Bool) (m : Str) :
    (m.reverse.dropWhile p).reverse <+: m := by
  have h : m.reverse.dropWhile p <:+ m.reverse := List.dropWhile_suffix p
  have h2 := List.reverse_prefix.mpr h
  rwa [List.reverse_reverse] at h2

lemma stripWs_isPrefixOf (l : Str) : stripWs l <+: l.dropWhile isSpacePy :=
  reverse_dropWhile_reverse_isPrefixOf isSpacePy (l.dropWhile isSpacePy)

lemma stripWs_isInfixOf (l : Str) : stripWs l <:+: l := by
  obtain ⟨t, ht⟩ := stripWs_isPrefixOf l
  obtain ⟨u, hu⟩ := List.dropWhile_suffix (l := l) isSpacePy
  exact ⟨u, t, by rw [List.append_assoc, ht, hu]⟩

lemma stripChars_isPrefixOf (chars l : Str) :
    stripChars chars l <+: l.dropWhile (chars.contains ·) :=
  reverse_dropWhile_reverse_isPrefixOf (chars.contains ·)
    (l.dropWhile (chars.contains ·))

lemma stripChars_isInfixOf (chars l : Str) : stripChars chars l <:+: l := by
  obtain ⟨t, ht⟩ := stripChars_isPrefixOf chars l
  obtain ⟨u, hu⟩ := List.dropWhile_suffix (l := l) (chars.contains ·)
  exact ⟨u, t, by rw [List.append_assoc, ht, hu]⟩

lemma prefix_head_eq {l m : Str} (h : l <+: m) {a : Char}
    (ha : l.head? = some a) : m.head? = some a := by
  obtain ⟨t, rfl⟩ := h
  cases l with
  | nil => simp at ha
  | cons x xs => simpa using ha

lemma stripWs_head {l : Str} {a : Char} (h : (stripWs l).head? = some a) :
    isSpacePy a = false :=
  dropWhile_head_false isSpacePy l a (prefix_head_eq (stripWs_isPrefixOf l) h)

lemma stripWs_getLast {l : Str} {a : Char} (h : (stripWs l).getLast? = some a) :
    isSpacePy a = false := by
  unfold stripWs at h
  rw [List.getLast?_reverse] at h
  exact dropWhile_head_false isSpacePy _ a h

lemma stripWs_eq_self {l : Str}
    (h1 : ∀ a, l.head? = some a → isSpacePy a = false)
    (h2 : ∀ a, l.getLast? = some a → isSpacePy a = false) : stripWs l = l := by
  unfold stripWs
  rw [dropWhile_eq_self_of_head isSpacePy h1]
  rw [dropWhile_eq_self_of_head isSpacePy (fun a ha => h2 a (by rwa [← List.head?_reverse]))]
  exact List.reverse_reverse l

lemma collapseGo_true_head :
    ∀ (l : Str) (a : Char), (collapseGo true l).head? = some a → isSpacePy a = false := by
  intro l
  induction l with
  | nil => intro a h; simp [collapseGo] at h
  | cons c cs ih =>
    intro a h
    by_cases hc : isSpacePy c
    · rw [show collapseGo true (c :: cs) = collapseGo true cs by
        simp [collapseGo, hc]] at h
      exact ih a h
    · rw [show collapseGo true (c :: cs) = c :: collapseGo false cs by
        simp [collapseGo, hc]] at h
      simp at h
      rw [← h]
      simpa using hc

lemma collapseGo_false_head (m : Str) {a : Char}
    (h : (collapseGo false m).head? = some a) : a = ' ' ∨ m.head? = some a := by
  cases m with
  | nil => simp [collapseGo] at h
  | cons c cs =>
    by_cases hc : isSpacePy c
    · rw [show collapseGo false (c :: cs) = ' ' :: collapseGo true cs by
        simp [collapseGo, hc]] at h
      simp at h
      exact Or.inl h.symm
    · rw [show collapseGo false (c :: cs) = c :: collapseGo false cs by
        simp [collapseGo, hc]] at h
      simp at h
      exact Or.inr (by simp [h])

lemma hasWsPair_collapseGo :
    ∀ (l : Str) (flag : Bool), hasWsPair (collapseGo flag l) = false := by
  intro l
  induction l with
  | nil => intro flag; simp [collapseGo, hasWsPair]
  | cons c cs ih =>
    intro flag
    by_cases hc : isSpacePy c
    · cases flag with
      | true =>
        rw [show collapseGo true (c :: cs) = collapseGo true cs by
          simp [collapseGo, hc]]
        exact ih true
      | false =>
        rw [show collapseGo false (c :: cs) = ' ' :: collapseGo true cs by
          simp [collapseGo, hc]]
        rw [hasWsPair_cons]
        have hhead : (collapseGo true cs).head?.any isSpacePy = false := by
          cases hh : (collapseGo true cs).head? with
          | none => rfl
          | some z => simp [collapseGo_true_head cs z hh]
        simp [hhead, ih true]
    · rw [show collapseGo flag (c :: cs) = c :: collapseGo false cs by
        cases flag <;> simp [collapseGo, hc]]
      rw [hasWsPair_cons]
      simp [hc, ih false]

lemma collapseWs_hasWsPair (l : Str) : hasWsPair (collapseWs l) = false :=
  hasWsPair_collapseGo l false

lemma collapseGo_space_mem :
    ∀ (l : Str) (flag : Bool) (c : Char), c ∈ collapseGo flag l →
      isSpacePy c = true → c = ' ' := by
  intro l
  induction l with
  | nil => intro flag c h; simp [collapseGo] at h
  | cons x xs ih =>
    intro flag c h hc
    by_cases hx : isSpacePy x
    · cases flag with
      | true =>
        rw [show collapseGo true (x :: xs) = collapseGo true xs by
          simp [collapseGo, hx]] at h
        exact ih true c h hc
      | false =>
        rw [show collapseGo false (x :: xs) = ' ' :: collapseGo true xs by
          simp [collapseGo, hx]] at h
        rcases List.mem_cons.mp h with rfl | h2
        · rfl
        · exact ih true c h2 hc
    · rw [show collapseGo flag (x :: xs) = x :: collapseGo false xs by
        cases flag <;> simp [collapseGo, hx]] at h
      rcases List.mem_cons.mp h with rfl | h2
      · rw [hc] at hx; exact absurd rfl hx
      · exact ih false c h2 hc

lemma collapseGo_true_eq_false_of_head {l : Str}
    (h : ∀ a, l.head? = some a → isSpacePy a = false) :
    collapseGo true l = collapseGo false l := by
  cases l with
  | nil => rfl
  | cons c cs =>
    have := h c rfl
    simp [collapseGo, this]

lemma collapseWs_eq_self :
    ∀ {l : Str}, hasWsPair l = false →
      (∀ c ∈ l, isSpacePy c = true → c = ' ') → collapseWs l = l := by
  intro l
  induction l with
  | nil => intro _ _; rfl
  | cons c cs ih =>
    intro hpair hmem
    by_cases hc : isSpacePy c
    · have hcsp : c = ' ' := hmem c (List.mem_cons_self c cs) hc
      have hhead : ∀ a, cs.head? = some a → isSpacePy a = false := by
        intro a ha
        cases cs with
        | nil => simp at ha
        | cons y ys =>
          simp at ha
          rw [hasWsPair_cons] at hpair
          have := (Bool.or_eq_false_iff.mp hpair).1
          simp [hc] at this
          rwa [← ha]
      have : collapseWs (c :: cs) = ' ' :: collapseGo true cs := by
        simp [collapseWs, collapseGo, hc]
      rw [this, collapseGo_true_eq_false_of_head hhead]
      have hrest : collapseGo false cs = cs :=
        ih (hasWsPair_tail hpair) (fun d hd => hmem d (List.mem_cons_of_mem c hd))
      rw [hrest, hcsp]
    · have : collapseWs (c :: cs) = c :: collapseGo false cs := by
        simp [collapseWs, collapseGo, hc]
      rw [this]
      have hrest : collapseGo false cs = cs :=
        ih (hasWsPair_tail hpair) (fun d hd => hmem d (List.mem_cons_of_mem c hd))
      rw [hrest]

/-! ### Facts about the two-character substitutions -/

lemma subPair_eq_catchall {a b r : Char} {l : Str}
    (h : ∀ (x y : Char) (rest : List Char), l = x :: y :: rest → False) :
    subPair a b r l = l := by
  cases l with
  | nil => rfl
  | cons x xs =>
    cases xs with
    | nil => rfl
    | cons y ys => exact absurd rfl (h x y ys)

lemma subPair_head_cases (a b r : Char) (l : Str) :
    ∀ z, (subPair a b r l).head? = some z →
      (z = r ∧ ∃ rest, l = a :: b :: rest) ∨ l.head? = some z := by
  induction l using subPair.induct a b r with
  | case1 x y rest h ih =>
    intro z hz
    rw [show subPair a b r (x :: y :: rest) = r :: subPair a b r rest by
      simp [subPair, h]] at hz
    simp at hz
    simp at h
    exact Or.inl ⟨hz.symm, rest, by rw [h.1, h.2]⟩
  | case2 x y rest h ih =>
    intro z hz
    rw [show subPair a b r (x :: y :: rest) = x :: subPair a b r (y :: rest) by
      simp [subPair, h]] at hz
    simp at hz
    exact Or.inr (by simp [hz])
  | case3 l h =>
    intro z hz
    rw [subPair_eq_catchall h] at hz
    exact Or.inr hz

lemma subPair_not_contains (a b r : Char) (hra : r ≠ a) (hrb : r ≠ b) :
    ∀ l : Str, containsPair a b (subPair a b r l) = false := by
  intro l
  induction l using subPair.induct a b r with
  | case1 x y rest h ih =>
    rw [show subPair a b r (x :: y :: rest) = r :: subPair a b r rest by
      simp [subPair, h]]
    rw [containsPair_cons]
    simp [hra, ih]
  | case2 x y rest h ih =>
    rw [show subPair a b r (x :: y :: rest) = x :: subPair a b r (y :: rest) by
      simp [subPair, h]]
    rw [containsPair_cons]
    simp only [Bool.or_eq_false_iff]
    refine ⟨?_, ih⟩
    by_cases hx : x = a
    · subst hx
      cases hz : (subPair x b r (y :: rest)).head? with
      | none => simp [hz]
      | some z =>
        rcases subPair_head_cases x b r (y :: rest) z hz with ⟨rfl, _, hform⟩ | hy
        · simp [hz, hrb]
        · simp at hy
          subst hy
          have : ¬(y = b) := by
            intro hyb
            exact h (by simp [hyb])
          simp [hz, this]
    · simp [hx]
  | case3 l h =>
    rw [subPair_eq_catchall h]
    cases l with
    | nil => rfl
    | cons x xs =>
      cases xs with
      | nil => rfl
      | cons y ys => exact absurd rfl (h x y ys)

lemma subPair_preserves_not_contains (a b r c d : Char) (hrc : r ≠ c) (hrd : r ≠ d) :
    ∀ l : Str, containsPair c d l = false →
      containsPair c d (subPair a b r l) = false := by
  intro l
  induction l using subPair.induct a b r with
  | case1 x y rest h ih =>
    intro hl
    rw [show subPair a b r (x :: y :: rest) = r :: subPair a b r rest by
      simp [subPair, h]]
    rw [containsPair_cons]
    simp [hrc, ih (containsPair_tail (containsPair_tail hl))]
  | case2 x y rest h ih =>
    intro hl
    rw [show subPair a b r (x :: y :: rest) = x :: subPair a b r (y :: rest) by
      simp [subPair, h]]
    rw [containsPair_cons]
    simp only [Bool.or_eq_false_iff]
    refine ⟨?_, ih (containsPair_tail hl)⟩
    by_cases hx : x = c
    · subst hx
      cases hz : (subPair a b r (y :: rest)).head? with
      | none => simp [hz]
      | some z =>
        rcases subPair_head_cases a b r (y :: rest) z hz with ⟨rfl, _, hform⟩ | hy
        · simp [hz, hrd]
        · simp at hy
          subst hy
          have : ¬(y = d) := by
            intro hyd
            rw [containsPair_cons] at hl
            simp [hyd] at hl
          simp [hz, this]
    · simp [hx]
  | case3 l h =>
    intro hl
    rwa [subPair_eq_catchall h]

lemma subPair_not_contains_of_no_aa (a b : Char) (hba : b ≠ a) :
    ∀ l : Str, containsPair a a l = false →
      containsPair a b (subPair a b b l) = false := by
  intro l
  induction l using subPair.induct a b b with
  | case1 x y rest h ih =>
    intro hl
    rw [show subPair a b b (x :: y :: rest) = b :: subPair a b b rest by
      simp [subPair, h]]
    rw [containsPair_cons]
    simp [hba, ih (containsPair_tail (containsPair_tail hl))]
  | case2 x y rest h ih =>
    intro hl
    rw [show subPair a b b (x :: y :: rest) = x :: subPair a b b (y :: rest) by
      simp [subPair, h]]
    rw [containsPair_cons]
    simp only [Bool.or_eq_false_iff]
    refine ⟨?_, ih (containsPair_tail hl)⟩
    by_cases hx : x = a
    · subst hx
      cases hz : (subPair x b b (y :: rest)).head? with
      | none => simp [hz]
      | some z =>
        rcases subPair_head_cases x b b (y :: rest) z hz with ⟨rfl, rest', hform⟩ | hy
        · -- the replacement `b` heads the rest only if `y = x`, giving an
          -- `x x` pair in the input
          simp at hform
          rw [containsPair_cons] at hl
          simp [hform.1] at hl
        · simp at hy
          subst hy
          have : ¬(y = b) := by
            intro hyb
            exact h (by simp [hyb])
          simp [hz, this]
    · simp [hx]
  | case3 l h =>
    intro hl
    rw [subPair_eq_catchall h]
    cases l with
    | nil => rfl
    | cons x xs =>
      cases xs with
      | nil => rfl
      | cons y ys => exact absurd rfl (h x y ys)

lemma subPair_eq_self (a b r : Char) :
    ∀ l : Str, containsPair a b l = false → subPair a b r l = l := by
  intro l
  induction l using subPair.induct a b r with
  | case1 x y rest h ih =>
    intro hl
    simp at h
    rw [containsPair_cons] at hl
    simp [h.1, h.2] at hl
  | case2 x y rest h ih =>
    intro hl
    rw [show subPair a b r (x :: y :: rest) = x :: subPair a b r (y :: rest) by
      simp [subPair, h]]
    rw [ih (containsPair_tail hl)]
  | case3 l h =>
    intro _
    exact subPair_eq_catchall h

/-! ### Transport of the no-pair invariants along the cleaning steps -/

lemma collapseGo_preserves_not_contains {a b : Char} (ha : a ≠ ' ') (hb : b ≠ ' ') :
    ∀ (l : Str) (flag : Bool), containsPair a b l = false →
      containsPair a b (collapseGo flag l) = false := by
  intro l
  induction l with
  | nil => intro flag _; cases flag <;> rfl
  | cons c cs ih =>
    intro flag hl
    by_cases hc : isSpacePy c
    · cases flag with
      | true =>
        rw [show collapseGo true (c :: cs) = collapseGo true cs by
          simp [collapseGo, hc]]
        exact ih true (containsPair_tail hl)
      | false =>
        rw [show collapseGo false (c :: cs) = ' ' :: collapseGo true cs by
          simp [collapseGo, hc]]
        rw [containsPair_cons]
        simp [Ne.symm ha, ih true (containsPair_tail hl)]
    · rw [show collapseGo flag (c :: cs) = c :: collapseGo false cs by
        cases flag <;> simp [collapseGo, hc]]
      rw [containsPair_cons]
      simp only [Bool.or_eq_false_iff]
      refine ⟨?_, ih false (containsPair_tail hl)⟩
      by_cases hca : c = a
      · subst hca
        cases hz : (collapseGo false cs).head? with
        | none => simp [hz]
        | some z =>
          rcases collapseGo_false_head cs hz with rfl | hy
          · simp [hz, Ne.symm hb]
          · have : ¬(z = b) := by
              intro hzb
              rw [containsPair_cons] at hl
              simp [hy, hzb] at hl
            simp [hz, this]
      · simp [hca]

lemma stripWs_preserves_not_contains {a b : Char} {l : Str}
    (h : containsPair a b l = false) : containsPair a b (stripWs l) = false := by
  cases hc : containsPair a b (stripWs l) with
  | false => rfl
  | true => exact absurd (containsPair_mono_isInfixOf (stripWs_isInfixOf l) hc) (by simp [h])

lemma stripWs_hasWsPair {l : Str} (h : hasWsPair l = false) :
    hasWsPair (stripWs l) = false := by
  cases hc : hasWsPair (stripWs l) with
  | false => rfl
  | true => exact absurd (hasWsPair_mono_isInfixOf (stripWs_isInfixOf l) hc) (by simp [h])

lemma mem_of_stripWs {c : Char} {l : Str} (h : c ∈ stripWs l) : c ∈ l := by
  obtain ⟨u, v, huv⟩ := stripWs_isInfixOf l
  rw [← huv]
  simp [h]

/-- With no spacer installed, the two whitespace collapses of `clean_text`
coincide, because collapsing is idempotent. -/
lemma clean_text_none_eq (s : Str) :
    clean_text none s =
      stripWs (collapseWs (escQuoteSub (replaceBackslashN s))) := by
  show stripWs (collapseWs (maybeApplySpacing none _)) = _
  rw [show ∀ t, maybeApplySpacing none t = t from fun _ => rfl]
  rw [collapseWs_eq_self (collapseWs_hasWsPair _)
    (fun c hc => collapseGo_space_mem _ false c hc)]

lemma clean_text_none_no_backslash_n (s : Str) :
    containsPair '\\' 'n' (clean_text none s) = false := by
  rw [clean_text_none_eq]
  apply stripWs_preserves_not_contains
  apply collapseGo_preserves_not_contains (by decide) (by decide)
  apply subPair_preserves_not_contains _ _ _ _ _ (by decide) (by decide)
  exact subPair_not_contains _ _ _ (by decide) (by decide) s

lemma clean_text_none_no_escaped_quote (s : Str)
    (hbb : containsPair '\\' '\\' s = false) :
    containsPair '\\' '"' (clean_text none s) = false := by
  rw [clean_text_none_eq]
  apply stripWs_preserves_not_contains
  apply collapseGo_preserves_not_contains (by decide) (by decide)
  apply subPair_not_contains_of_no_aa _ _ (by decide)
  exact subPair_preserves_not_contains _ _ _ _ _ (by decide) (by decide) s hbb

lemma clean_text_hasWsPair (sp : Option (Str → Option Str)) (s : Str) :
    hasWsPair (clean_text sp s) = false :=
  stripWs_hasWsPair (collapseWs_hasWsPair _)

lemma clean_text_head {sp : Option (Str → Option Str)} {s : Str} {a : Char}
    (h : (clean_text sp s).head? = some a) : isSpacePy a = false :=
  stripWs_head h

lemma clean_text_getLast {sp : Option (Str → Option Str)} {s : Str} {a : Char}
    (h : (clean_text sp s).getLast? = some a) : isSpacePy a = false :=
  stripWs_getLast h

lemma clean_text_space_mem {sp : Option (Str → Option Str)} {s : Str} {c : Char}
    (h : c ∈ clean_text sp s) (hc : isSpacePy c = true) : c = ' ' :=
  collapseGo_space_mem _ false c (mem_of_stripWs h) hc

/-! ### Claims C1, C2 (normalizer idempotence and escaped-quote invariant) -/

/-- C1, counterexample: on the input backslash–backslash–quote, cleaning once
yields backslash–quote, and cleaning a second time yields a bare quote, so
`clean_text` is not idempotent even with the spacing corrector absent. -/
theorem c1_clean_text_not_idempotent :
    clean_text none (clean_text none ['\\', '\\', '"']) ≠
      clean_text none ['\\', '\\', '"'] := by decide

/-- C1, amended: with the spacing corrector absent, `clean_text` is
idempotent on every input string that contains no two consecutive
backslash characters. -/
theorem c1_clean_text_idempotent_no_double_backslash (s : Str)
    (h : containsPair '\\' '\\' s = false) :
    clean_text none (clean_text none s) = clean_text none s := by
  have hbn := clean_text_none_no_backslash_n s
  have hqe := clean_text_none_no_escaped_quote s h
  rw [clean_text_none_eq (clean_text none s)]
  rw [show replaceBackslashN (clean_text none s) = clean_text none s from
    subPair_eq_self _ _ _ _ hbn]
  rw [show escQuoteSub (clean_text none s) = clean_text none s from
    subPair_eq_self _ _ _ _ hqe]
  rw [collapseWs_eq_self (clean_text_hasWsPair none s)
    (fun c hc hsp => clean_text_space_mem hc hsp)]
  exact stripWs_eq_self (fun a ha => clean_text_head ha)
    (fun a ha => clean_text_getLast ha)

theorem c1_clean_text_idempotent_no_double_backslash_witness :
    containsPair '\\' '\\' "ab \\\"cd\\\" ef".data = false ∧
      clean_text none (clean_text none "ab \\\"cd\\\" ef".data) =
        clean_text none "ab \\\"cd\\\" ef".data :=
  ⟨by decide, c1_clean_text_idempotent_no_double_backslash _ (by decide)⟩

/-- C2, counterexample: on the input backslash–backslash–quote, the output of
`clean_text` is backslash–quote, which still contains the literal
backslash-escaped double-quote sequence. -/
theorem c2_clean_text_escaped_quote_survives :
    containsPair '\\' '"' (clean_text none ['\\', '\\', '"']) = true := by
  decide

/-- C2, amended: with the spacing corrector absent, for every input string
containing no two consecutive backslashes, the output of `clean_text`
contains no literal backslash-escaped double-quote sequence. -/
theorem c2_clean_text_no_escaped_quote (s : Str)
    (h : containsPair '\\' '\\' s = false) :
    containsPair '\\' '"' (clean_text none s) = false :=
  clean_text_none_no_escaped_quote s h

theorem c2_clean_text_no_escaped_quote_witness :
    containsPair '\\' '\\' "x \\\"y\\\" z".data = false ∧
      containsPair '\\' '"' (clean_text none "x \\\"y\\\" z".data) = false :=
  ⟨by decide, c2_clean_text_no_escaped_quote _ (by decide)⟩

/-! ### Claims C6, C7, C8 (whitespace invariant, spacer failure, empty input) -/

/-- C6: for every spacing corrector and every input string, the output of
`clean_text` contains no two consecutive whitespace characters and has no
leading or trailing whitespace. -/
theorem c6_clean_text_whitespace_invariant (sp : Option (Str → Option Str))
    (s : Str) :
    hasWsPair (clean_text sp s) = false ∧
      (clean_text sp s).head?.all (fun a => !isSpacePy a) = true ∧
      (clean_text sp s).getLast?.all (fun a => !isSpacePy a) = true := by
  refine ⟨clean_text_hasWsPair sp s, ?_, ?_⟩
  · cases h : (clean_text sp s).head? with
    | none => rfl
    | some a => simp [Option.all_some, clean_text_head h]
  · cases h : (clean_text sp s).getLast? with
    | none => rfl
    | some a => simp [Option.all_some, clean_text_getLast h]

/-- C7: if the spacing corrector raises on the (collapsed) text passed to it,
`clean_text` returns exactly the result it computes with no corrector
installed, and no error escapes. -/
theorem c7_clean_text_spacer_failure_fallback (f : Str → Option Str) (s : Str)
    (h : f (collapseWs (escQuoteSub (replaceBackslashN s))) = none) :
    clean_text (some f) s = clean_text none s := by
  show stripWs (collapseWs (maybeApplySpacing (some f) _)) =
    stripWs (collapseWs (maybeApplySpacing none _))
  rw [show maybeApplySpacing (some f)
      (collapseWs (escQuoteSub (replaceBackslashN s))) =
      collapseWs (escQuoteSub (replaceBackslashN s)) by
    simp [maybeApplySpacing, h]]
  rfl

theorem c7_clean_text_spacer_failure_fallback_witness :
    clean_text (some fun _ => none) "a \\\"b".data =
      clean_text none "a \\\"b".data :=
  c7_clean_text_spacer_failure_fallback (fun _ => none) _ rfl

/-- C8: on empty input the whole pipeline returns empty results —
`clean_text` gives the empty string, `split_into_sentences` gives the
empty list for every boundary provider (the provider is never consulted),
and `extract_vocabulary` gives the empty list for every `min_length`.  The
spacer, when installed, is assumed to map the empty string to itself or
raise. -/
theorem c8_pipeline_empty_input (sp : Option (Str → Option Str))
    (hsp : maybeApplySpacing sp [] = []) :
    clean_text sp [] = [] ∧
      (∀ provider : Str → List Str, split_into_sentences sp provider [] = []) ∧
      ∀ n : Int, extract_vocabulary sp [] n = [] := by
  have hclean : clean_text sp [] = [] := by
    show stripWs (collapseWs (maybeApplySpacing sp
      (collapseWs (escQuoteSub (replaceBackslashN []))))) = []
    rw [show collapseWs (escQuoteSub (replaceBackslashN [])) = [] from rfl, hsp]
    rfl
  refine ⟨hclean, fun provider => ?_, fun n => ?_⟩
  · show (if (clean_text sp []).isEmpty then _
      else post_process_sentences (provider (clean_text sp []))) = []
    rw [hclean]
    rfl
  · show (((hangulRuns (clean_text sp [])).filter _).dedup).insertionSort _ = []
    rw [hclean]
    rfl

theorem c8_pipeline_empty_input_witness :
    clean_text none [] = [] ∧
      split_into_sentences none (fun t => [t]) [] = [] ∧
      extract_vocabulary none [] (-7) = [] :=
  ⟨(c8_pipeline_empty_input none rfl).1,
    (c8_pipeline_empty_input none rfl).2.1 _,
    (c8_pipeline_empty_input none rfl).2.2 _⟩

/-! ### Claim C3 (sentence length and noise invariants) -/

lemma normalize_sentence_eq_some {seg s : Str}
    (h : normalize_sentence seg = some s) :
    s = stripChars SENTENCE_STRIP_CHARS
        (collapseWs (digitOrphanSub (stripChars SENTENCE_STRIP_CHARS seg))) ∧
      MIN_SENTENCE_LENGTH ≤ s.length ∧ noiseFullmatch s = false := by
  simp only [normalize_sentence] at h
  split at h
  · simp at h
  · split at h
    · simp at h
    · split at h
      · simp at h
      · next hlen hnoise =>
        simp only [Option.some.injEq] at h
        subst h
        exact ⟨rfl, Nat.le_of_not_lt hlen, Bool.eq_false_iff.mpr hnoise⟩

lemma mem_split_into_sentences {sp : Option (Str → Option Str)}
    {provider : Str → List Str} {text s : Str}
    (h : s ∈ split_into_sentences sp provider text) :
    ∃ seg, normalize_sentence seg = some s := by
  simp only [split_into_sentences] at h
  split at h
  · simp at h
  · simp only [post_process_sentences, List.mem_flatMap, List.mem_filterMap] at h
    obtain ⟨sentence, _, seg, _, hseg⟩ := h
    exact ⟨seg, hseg⟩

/-- C3: every sentence produced by `split_into_sentences` — for any spacer,
any boundary provider and any input — has length at least 3 code points,
and is not a full-string match of the noise class `^[\W\d_]+$` (it is not
composed entirely of non-word characters, digits and underscores). -/
theorem c3_sentence_min_length_not_noise (sp : Option (Str → Option Str))
    (provider : Str → List Str) (text s : Str)
    (h : s ∈ split_into_sentences sp provider text) :
    3 ≤ s.length ∧ noiseFullmatch s = false := by
  obtain ⟨seg, hseg⟩ := mem_split_into_sentences h
  obtain ⟨_, hlen, hnoise⟩ := normalize_sentence_eq_some hseg
  exact ⟨hlen, hnoise⟩

theorem c3_sentence_min_length_not_noise_witness :
    "Hello world".data ∈
        split_into_sentences none (fun t => [t]) "Hello world".data ∧
      3 ≤ "Hello world".data.length ∧
      noiseFullmatch "Hello world".data = false :=
  ⟨by decide,
    c3_sentence_min_length_not_noise none (fun t => [t]) "Hello world".data
      "Hello world".data (by decide)⟩

/-! ### Claim C9: the digit-orphan scanner leaves no isolated short run -/

lemma isWordChar_of_isDigitCh {c : Char} (h : isDigitCh c = true) :
    isWordChar c = true := by
  simp only [isDigitCh, isWordChar, Bool.or_eq_true, Bool.and_eq_true,
    decide_eq_true_eq, beq_iff_eq] at h ⊢
  omega

lemma not_isWordChar_of_isSpacePy {c : Char} (h : isSpacePy c = true) :
    isWordChar c = false := by
  simp only [isSpacePy, isWordChar, Bool.or_eq_true, Bool.and_eq_true,
    decide_eq_true_eq, beq_iff_eq, Bool.or_eq_false_iff, Bool.and_eq_false_iff,
    decide_eq_false_iff_not, beq_eq_false_iff_ne, ne_eq] at h ⊢
  omega

lemma not_hasIsolatedRunCtx_nil (pw : Bool) : ¬ hasIsolatedRunCtx pw [] := by
  rintro ⟨pre, run, post, heq, hne, -, -, -, -⟩
  rw [eq_comm, List.append_eq_nil, List.append_eq_nil] at heq
  exact hne heq.1.2

lemma hasIsolatedRunCtx_irrel {X : Str}
    (hX : ∀ d, X.head? = some d → isDigitCh d = false)
    {pw pw' : Bool} (h : hasIsolatedRunCtx pw X) : hasIsolatedRunCtx pw' X := by
  obtain ⟨pre, run, post, heq, hne, hlen, hdig, hpre, hpost⟩ := h
  cases pre with
  | nil =>
    cases run with
    | nil => exact absurd rfl hne
    | cons r0 rs =>
      have hh : X.head? = some r0 := by simp [heq]
      exact absurd (hdig r0 (List.mem_cons_self r0 rs)) (by simp [hX r0 hh])
  | cons p ps =>
    refine ⟨p :: ps, run, post, heq, hne, hlen, hdig, ?_, hpost⟩
    cases hg : (p :: ps).getLast? with
    | none => exact absurd hg (by simp [List.getLast?_eq_none_iff])
    | some a =>
      rw [hg] at hpre
      exact hpre

lemma digitGo_nil_any : ∀ (fuel : Nat) (pw : Bool), digitGo fuel pw [] = []
  | 0, _ => rfl
  | _ + 1, _ => rfl

lemma digitGo_cons_nondigit {fuel : Nat} (pw : Bool) {d : Char}
    (hd : isDigitCh d = false) (rest' : Str) :
    digitGo (fuel + 1) pw (d :: rest') = d :: digitGo fuel (isWordChar d) rest' := by
  simp [digitGo, hd]

lemma digitGo_no_isolated :
    ∀ (fuel : Nat) (pw : Bool) (l : Str), l.length < fuel →
      ¬ hasIsolatedRunCtx pw (digitGo fuel pw l) := by
  intro fuel
  induction fuel with
  | zero => intro pw l hl; omega
  | succ fuel ih =>
    intro pw l hl
    cases l with
    | nil =>
      rw [digitGo_nil_any]
      exact not_hasIsolatedRunCtx_nil pw
    | cons c cs =>
      have hcs_len : cs.length < fuel := by
        simp at hl
        omega
      by_cases hc : isDigitCh c = true
      · -- a digit run starts here
        have hrest_len : (cs.dropWhile isDigitCh).length < fuel :=
          lt_of_le_of_lt (List.dropWhile_suffix _).length_le hcs_len
        have hrest_head : ∀ d, (cs.dropWhile isDigitCh).head? = some d →
            isDigitCh d = false := dropWhile_head_false isDigitCh cs
        have hXhead : ∀ z, (digitGo fuel true (cs.dropWhile isDigitCh)).head? =
            some z → isDigitCh z = false := by
          intro z hz
          cases hr : cs.dropWhile isDigitCh with
          | nil => rw [hr, digitGo_nil_any] at hz; simp at hz
          | cons d rest' =>
            cases fuel with
            | zero => rw [hr] at hrest_len; simp at hrest_len
            | succ f =>
              rw [hr, digitGo_cons_nondigit _ (hrest_head d (by simp [hr]))] at hz
              simp at hz
              rw [← hz]
              exact hrest_head d (by simp [hr])
        have hrun_digits : ∀ x ∈ c :: cs.takeWhile isDigitCh, isDigitCh x = true := by
          intro x hx
          rcases List.mem_cons.mp hx with rfl | hx2
          · exact hc
          · exact List.mem_takeWhile_imp hx2
        simp only [digitGo, hc, if_true]
        split
        · -- the run is removed
          next hcond =>
          simp only [Bool.and_eq_true, Bool.not_eq_true', decide_eq_true_eq] at hcond
          obtain ⟨⟨hpw, hnext⟩, hrunlen⟩ := hcond
          intro h
          exact ih true (cs.dropWhile isDigitCh) hrest_len
            (hasIsolatedRunCtx_irrel hXhead h)
        · -- the run is kept
          next hcond =>
          intro h
          obtain ⟨pre, r, post, heq, hne, hlen, hdig, hpre, hpost⟩ := h
          rw [List.append_assoc] at heq
          rcases List.append_eq_append_iff.mp heq with ⟨v, hv1, hv2⟩ | ⟨c', hc1, hc2⟩
          · -- pre extends past the kept run into the processed tail
            cases v with
            | nil =>
              simp at hv2
              cases r with
              | nil => exact absurd rfl hne
              | cons r0 rs =>
                have : (digitGo fuel true (cs.dropWhile isDigitCh)).head? = some r0 := by
                  rw [hv2]; rfl
                exact absurd (hdig r0 (List.mem_cons_self r0 rs))
                  (by simp [hXhead r0 this])
            | cons v0 vs =>
              refine ih true (cs.dropWhile isDigitCh) hrest_len
                ⟨v0 :: vs, r, post, by rw [hv2, List.append_assoc], hne, hlen, hdig, ?_, hpost⟩
              cases hg : (v0 :: vs).getLast? with
              | none => exact absurd hg (by simp [List.getLast?_eq_none_iff])
              | some a =>
                have hga : pre.getLast? = some a := by
                  rw [hv1, List.getLast?_append, hg]
                  rfl
                rw [hga] at hpre
                exact hpre
          · -- the matched run sits inside the kept digit run
            have hprenil : pre = [] := by
              cases hp : pre with
              | nil => rfl
              | cons p0 ps =>
                exfalso
                cases hg : pre.getLast? with
                | none => rw [hp] at hg; simp [List.getLast?_eq_none_iff] at hg
                | some a =>
                  have ha_mem : a ∈ pre := List.mem_of_mem_getLast? hg
                  have ha_run : a ∈ c :: cs.takeWhile isDigitCh := by
                    rw [hc1]; exact List.mem_append_left _ ha_mem
                  have := isWordChar_of_isDigitCh (hrun_digits a ha_run)
                  rw [hg] at hpre
                  rw [hpre] at this
                  exact Bool.false_ne_true this
            subst hprenil
            simp only [List.nil_append] at hc1
            have hpwf : pw = false := hpre
            -- now run = c' and r ++ post = c' ++ X'
            rcases List.append_eq_append_iff.mp hc2 with ⟨w, hw1, hw2⟩ | ⟨w, hw1, hw2⟩
            · -- c' = r ++ w, post = w ++ X'
              have hwnil : w = [] := by
                cases hwc : w with
                | nil => rfl
                | cons w0 ws =>
                  exfalso
                  have hw0_run : w0 ∈ c :: cs.takeWhile isDigitCh := by
                    rw [hc1, hw1, hwc]
                    exact List.mem_append_right _ (List.mem_cons_self w0 ws)
                  have hword := isWordChar_of_isDigitCh (hrun_digits w0 hw0_run)
                  have := hpost w0 (by simp [hw2, hwc])
                  rw [this] at hword
                  exact Bool.false_ne_true hword
              subst hwnil
              simp at hw1 hw2
              -- run = r, post = X'
              rw [hw1] at hc1
              -- hcond : the keep condition, with pw = false forced
              have hrl : r.length ≤ 4 := hlen
              have hcl : (c :: cs.takeWhile isDigitCh).length ≤ 4 := by
                rw [hc1]; exact hrl
              have hnextw : (match (cs.dropWhile isDigitCh).head? with
                  | some d => isWordChar d
                  | none => false) = true := by
                by_contra hfalse
                apply hcond
                simp only [Bool.and_eq_true, Bool.not_eq_true', decide_eq_true_eq]
                exact ⟨⟨hpwf, Bool.eq_false_iff.mpr hfalse⟩, hcl⟩
              cases hr : (cs.dropWhile isDigitCh) with
              | nil => rw [hr] at hnextw; simp at hnextw
              | cons d rest' =>
                rw [hr] at hnextw
                simp at hnextw
                cases fuel with
                | zero => rw [hr] at hrest_len; simp at hrest_len
                | succ f =>
                  have hX : digitGo (f + 1) true (cs.dropWhile isDigitCh) =
                      d :: digitGo f (isWordChar d) rest' := by
                    rw [hr]
                    exact digitGo_cons_nondigit _ (hrest_head d (by simp [hr])) _
                  have := hpost d (by rw [hw2, hX]; rfl)
                  rw [this] at hnextw
                  exact Bool.false_ne_true hnextw
            · -- r = c' ++ w, X' = w ++ post
              have hwnil : w = [] := by
                cases hwc : w with
                | nil => rfl
                | cons w0 ws =>
                  exfalso
                  have hw0r : w0 ∈ r := by
                    rw [hw1, hwc]
                    exact List.mem_append_right _ (List.mem_cons_self w0 ws)
                  have : (digitGo fuel true (cs.dropWhile isDigitCh)).head? = some w0 := by
                    rw [hw2, hwc]; rfl
                  exact absurd (hdig w0 hw0r) (by simp [hXhead w0 this])
              subst hwnil
              simp at hw1 hw2
              rw [← hw1] at hc1
              have hcl : (c :: cs.takeWhile isDigitCh).length ≤ 4 := by
                rw [hc1]; exact hlen
              have hnextw : (match (cs.dropWhile isDigitCh).head? with
                  | some d => isWordChar d
                  | none => false) = true := by
                by_contra hfalse
                apply hcond
                simp only [Bool.and_eq_true, Bool.not_eq_true', decide_eq_true_eq]
                exact ⟨⟨hpwf, Bool.eq_false_iff.mpr hfalse⟩, hcl⟩
              cases hr : (cs.dropWhile isDigitCh) with
              | nil => rw [hr] at hnextw; simp at hnextw
              | cons d rest' =>
                rw [hr] at hnextw
                simp at hnextw
                cases fuel with
                | zero => rw [hr] at hrest_len; simp at hrest_len
                | succ f =>
                  have hX : digitGo (f + 1) true (cs.dropWhile isDigitCh) =
                      d :: digitGo f (isWordChar d) rest' := by
                    rw [hr]
                    exact digitGo_cons_nondigit _ (hrest_head d (by simp [hr])) _
                  have := hpost d (by rw [← hw2, hX]; rfl)
                  rw [this] at hnextw
                  exact Bool.false_ne_true hnextw
      · -- not a digit: the character is emitted unchanged
        rw [show digitGo (fuel + 1) pw (c :: cs) =
            c :: digitGo fuel (isWordChar c) cs from
          digitGo_cons_nondigit pw (Bool.eq_false_iff.mpr hc) cs]
        intro h
        obtain ⟨pre, r, post, heq, hne, hlen, hdig, hpre, hpost⟩ := h
        cases pre with
        | nil =>
          simp at heq
          cases r with
          | nil => exact absurd rfl hne
          | cons r0 rs =>
            have : c = r0 := by
              have := congrArg List.head? heq
              simpa using this
            exact hc (this ▸ hdig r0 (List.mem_cons_self r0 rs))
        | cons p ps =>
          have hp : p = c ∧ digitGo fuel (isWordChar c) cs = ps ++ (r ++ post) := by
            have := heq
            simp at this
            exact ⟨this.1.symm, this.2⟩
          refine ih (isWordChar c) cs hcs_len
            ⟨ps, r, post, hp.2.trans (List.append_assoc ps r post).symm, hne, hlen, hdig, ?_, hpost⟩
          cases hg : ps.getLast? with
          | none =>
            have hps : ps = [] := List.getLast?_eq_none_iff.mp hg
            have : (p :: ps).getLast? = some p := by rw [hps]; rfl
            rw [this] at hpre
            rw [hp.1] at hpre
            exact hpre
          | some a =>
            have : (p :: ps).getLast? = some a := by
              cases ps with
              | nil => simp at hg
              | cons q qs => rw [List.getLast?_cons_cons]; exact hg
            rw [this] at hpre
            exact hpre

/-! ### Claim C9: transport of the no-isolated-run invariant -/

lemma not_isSpacePy_of_isDigitCh {c : Char} (h : isDigitCh c = true) :
    isSpacePy c = false := by
  simp only [isDigitCh, isSpacePy, Bool.or_eq_true, Bool.and_eq_true,
    decide_eq_true_eq, beq_iff_eq, Bool.or_eq_false_iff, Bool.and_eq_false_iff,
    decide_eq_false_iff_not, beq_eq_false_iff_ne, ne_eq] at h ⊢
  omega

lemma hasIsolatedRunCtx_false_iff (l : Str) :
    hasIsolatedRunCtx false l ↔ hasIsolatedShortDigitRun l := by
  constructor
  · rintro ⟨pre, run, post, heq, hne, hlen, hdig, hpre, hpost⟩
    refine ⟨pre, run, post, heq, hne, hlen, hdig, ?_, hpost⟩
    intro a ha
    rw [ha] at hpre
    exact hpre
  · rintro ⟨pre, run, post, heq, hne, hlen, hdig, hpre, hpost⟩
    refine ⟨pre, run, post, heq, hne, hlen, hdig, ?_, hpost⟩
    cases hg : pre.getLast? with
    | none => rfl
    | some a => exact hpre a hg

lemma hasIsolatedRunCtx_of_false {l : Str} {pw1 pw2 : Bool} (h2 : pw2 = false)
    (h : hasIsolatedRunCtx pw1 l) : hasIsolatedRunCtx pw2 l := by
  obtain ⟨pre, run, post, heq, hne, hlen, hdig, hpre, hpost⟩ := h
  refine ⟨pre, run, post, heq, hne, hlen, hdig, ?_, hpost⟩
  cases hg : pre.getLast? with
  | none => exact h2
  | some a =>
    rw [hg] at hpre
    exact hpre

lemma hasIsolatedRunCtx_cons_lift_word {c : Char} {cs : Str} {pw : Bool}
    (h : hasIsolatedRunCtx (isWordChar c) cs) :
    hasIsolatedRunCtx pw (c :: cs) := by
  obtain ⟨pre, run, post, heq, hne, hlen, hdig, hpre, hpost⟩ := h
  refine ⟨c :: pre, run, post, by rw [heq]; rfl, hne, hlen, hdig, ?_, hpost⟩
  cases pre with
  | nil =>
    have hcw : isWordChar c = false := hpre
    simp only [List.getLast?_singleton]
    exact hcw
  | cons p ps =>
    rw [List.getLast?_cons_cons]
    exact hpre

lemma hasIsolatedRunCtx_cons_lift {c : Char} {cs : Str} {pw pw' : Bool}
    (hcw : isWordChar c = false) (h : hasIsolatedRunCtx pw' cs) :
    hasIsolatedRunCtx pw (c :: cs) :=
  hasIsolatedRunCtx_cons_lift_word (hasIsolatedRunCtx_of_false hcw h)

lemma collapseGo_false_peel :
    ∀ (run₂ cs post : Str),
      collapseGo false cs = run₂ ++ post →
      (∀ c ∈ run₂, isSpacePy c = false) →
      ∃ Q, cs = run₂ ++ Q ∧
        (∀ a, Q.head? = some a → isSpacePy a = true ∨ post.head? = some a) := by
  intro run₂
  induction run₂ with
  | nil =>
    intro cs post heq _
    refine ⟨cs, rfl, ?_⟩
    intro a ha
    by_cases hsp : isSpacePy a = true
    · exact Or.inl hsp
    · right
      simp only [List.nil_append] at heq
      cases cs with
      | nil => simp at ha
      | cons e cs' =>
        have hea : e = a := by simpa using ha
        have hse : isSpacePy e = false := by
          rw [hea]
          exact Bool.eq_false_iff.mpr hsp
        rw [show collapseGo false (e :: cs') = e :: collapseGo false cs' by
          simp [collapseGo, hse]] at heq
        rw [← heq, ← hea]
        rfl
  | cons d run₂' ih =>
    intro cs post heq hns
    have hd : isSpacePy d = false := hns d (List.mem_cons_self d run₂')
    cases cs with
    | nil => simp [collapseGo] at heq
    | cons e cs' =>
      by_cases hsp : isSpacePy e = true
      · rw [show collapseGo false (e :: cs') = ' ' :: collapseGo true cs' by
          simp [collapseGo, hsp]] at heq
        simp at heq
        rw [← heq.1] at hd
        simp [isSpacePy] at hd
      · rw [show collapseGo false (e :: cs') = e :: collapseGo false cs' by
          simp [collapseGo, hsp]] at heq
        simp at heq
        obtain ⟨Q, hcs', hQ⟩ := ih cs' post heq.2
          (fun c hc => hns c (List.mem_cons_of_mem d hc))
        refine ⟨Q, ?_, hQ⟩
        rw [heq.1, hcs']
        rfl

lemma collapseGo_hasIso_transport :
    ∀ (x : Str) (flag pw : Bool),
      hasIsolatedRunCtx pw (collapseGo flag x) → hasIsolatedRunCtx pw x := by
  intro x
  induction x with
  | nil =>
    intro flag pw h
    rw [show collapseGo flag [] = [] by cases flag <;> rfl] at h
    exact absurd h (not_hasIsolatedRunCtx_nil pw)
  | cons c cs ih =>
    intro flag pw h
    by_cases hc : isSpacePy c = true
    · have hcw : isWordChar c = false := not_isWordChar_of_isSpacePy hc
      cases flag with
      | true =>
        rw [show collapseGo true (c :: cs) = collapseGo true cs by
          simp [collapseGo, hc]] at h
        exact hasIsolatedRunCtx_cons_lift hcw (ih true pw h)
      | false =>
        rw [show collapseGo false (c :: cs) = ' ' :: collapseGo true cs by
          simp [collapseGo, hc]] at h
        obtain ⟨pre, run, post, heq, hne, hlen, hdig, hpre, hpost⟩ := h
        cases pre with
        | nil =>
          exfalso
          cases run with
          | nil => exact hne rfl
          | cons r0 rs =>
            have hr0sp : r0 = ' ' := by
              have := congrArg List.head? heq
              simpa using this.symm
            have hd := hdig r0 (List.mem_cons_self r0 rs)
            rw [hr0sp] at hd
            simp [isDigitCh] at hd
        | cons p ps =>
          have hp : p = ' ' ∧ collapseGo true cs = ps ++ (run ++ post) := by
            have := heq
            simp at this
            exact ⟨this.1.symm, this.2⟩
          have hT : hasIsolatedRunCtx false (collapseGo true cs) := by
            refine ⟨ps, run, post,
              hp.2.trans (List.append_assoc ps run post).symm, hne, hlen, hdig,
              ?_, hpost⟩
            cases hg : ps.getLast? with
            | none => rfl
            | some a =>
              have : (p :: ps).getLast? = some a := by
                cases ps with
                | nil => simp at hg
                | cons q qs => rw [List.getLast?_cons_cons]; exact hg
              rw [this] at hpre
              exact hpre
          exact hasIsolatedRunCtx_cons_lift hcw (ih true false hT)
    · rw [show collapseGo flag (c :: cs) = c :: collapseGo false cs by
        cases flag <;> simp [collapseGo, hc]] at h
      obtain ⟨pre, run, post, heq, hne, hlen, hdig, hpre, hpost⟩ := h
      cases pre with
      | nil =>
        have hpw : pw = false := hpre
        simp only [List.nil_append] at heq
        cases run with
        | nil => exact absurd rfl hne
        | cons r0 rs =>
          have hr0 : r0 = c := by
            have := congrArg List.head? heq
            simpa using this.symm
          subst hr0
          have hT : collapseGo false cs = rs ++ post := by
            have := congrArg List.tail heq
            simpa using this
          have hrs_ns : ∀ d ∈ rs, isSpacePy d = false := fun d hd =>
            not_isSpacePy_of_isDigitCh
              (hdig d (List.mem_cons_of_mem r0 hd))
          obtain ⟨Q, hcs, hQ⟩ := collapseGo_false_peel rs cs post hT hrs_ns
          refine ⟨[], r0 :: rs, Q, by rw [hcs]; rfl, hne, hlen, hdig, hpw, ?_⟩
          intro a ha
          rcases hQ a ha with hsp | hph
          · exact not_isWordChar_of_isSpacePy hsp
          · exact hpost a hph
      | cons p ps =>
        have hp : p = c ∧ collapseGo false cs = ps ++ (run ++ post) := by
          have := heq
          simp at this
          exact ⟨this.1.symm, this.2⟩
        have hT : hasIsolatedRunCtx (isWordChar c) (collapseGo false cs) := by
          refine ⟨ps, run, post,
            hp.2.trans (List.append_assoc ps run post).symm, hne, hlen, hdig,
            ?_, hpost⟩
          cases hg : ps.getLast? with
          | none =>
            have hps : ps = [] := List.getLast?_eq_none_iff.mp hg
            have : (p :: ps).getLast? = some p := by rw [hps]; rfl
            rw [this] at hpre
            rw [hp.1] at hpre
            exact hpre
          | some a =>
            have : (p :: ps).getLast? = some a := by
              cases ps with
              | nil => simp at hg
              | cons q qs => rw [List.getLast?_cons_cons]; exact hg
            rw [this] at hpre
            exact hpre
        exact hasIsolatedRunCtx_cons_lift_word (ih false (isWordChar c) hT)

lemma collapseWs_hasIso_transport {x : Str}
    (h : hasIsolatedShortDigitRun (collapseWs x)) :
    hasIsolatedShortDigitRun x := by
  rw [← hasIsolatedRunCtx_false_iff] at h ⊢
  exact collapseGo_hasIso_transport x false false h

lemma SSC_not_word : ∀ c ∈ SENTENCE_STRIP_CHARS, isWordChar c = false := by
  decide

lemma stripChars_decomp (chars l : Str) :
    ∃ A B, l = A ++ stripChars chars l ++ B ∧
      (∀ c ∈ A, c ∈ chars) ∧ (∀ c ∈ B, c ∈ chars) := by
  refine ⟨l.takeWhile (chars.contains ·),
    ((l.dropWhile (chars.contains ·)).reverse.takeWhile (chars.contains ·)).reverse,
    ?_, ?_, ?_⟩
  · conv_lhs => rw [← List.takeWhile_append_dropWhile (p := (chars.contains ·)) (l := l)]
    rw [List.append_assoc]
    congr 1
    conv_lhs => rw [← List.reverse_reverse (l.dropWhile (chars.contains ·)),
      ← List.takeWhile_append_dropWhile (p := (chars.contains ·))
        (l := (l.dropWhile (chars.contains ·)).reverse)]
    rw [List.reverse_append]
    rfl
  · intro c hc
    have hcc : chars.contains c = true := List.mem_takeWhile_imp hc
    exact List.mem_of_elem_eq_true hcc
  · intro c hc
    rw [List.mem_reverse] at hc
    have hcc : chars.contains c = true := List.mem_takeWhile_imp hc
    exact List.mem_of_elem_eq_true hcc

lemma hasIso_extend {s' A B : Str}
    (h : hasIsolatedShortDigitRun s')
    (hA : ∀ c ∈ A, isWordChar c = false)
    (hB : ∀ c ∈ B, isWordChar c = false) :
    hasIsolatedShortDigitRun (A ++ s' ++ B) := by
  obtain ⟨pre, run, post, heq, hne, hlen, hdig, hpre, hpost⟩ := h
  refine ⟨A ++ pre, run, post ++ B, by rw [heq]; simp, hne, hlen, hdig, ?_, ?_⟩
  · intro a ha
    rw [List.getLast?_append] at ha
    cases hg : pre.getLast? with
    | some b =>
      rw [hg] at ha
      simp at ha
      exact ha ▸ hpre b hg
    | none =>
      rw [hg] at ha
      simp at ha
      exact hA a (List.mem_of_mem_getLast? ha)
  · intro a ha
    rw [List.head?_append] at ha
    cases hg : post.head? with
    | some b =>
      rw [hg] at ha
      simp at ha
      exact ha ▸ hpost b hg
    | none =>
      rw [hg] at ha
      simp at ha
      exact hB a (List.mem_of_mem_head? ha)

lemma stripChars_SSC_hasIso_transport {l : Str}
    (h : hasIsolatedShortDigitRun (stripChars SENTENCE_STRIP_CHARS l)) :
    hasIsolatedShortDigitRun l := by
  obtain ⟨A, B, hl, hA, hB⟩ := stripChars_decomp SENTENCE_STRIP_CHARS l
  rw [hl]
  exact hasIso_extend h (fun c hc => SSC_not_word c (hA c hc))
    (fun c hc => SSC_not_word c (hB c hc))

/-- C9: no sentence produced by `split_into_sentences` contains a
word-boundary-isolated run of one to four digit characters; in particular
an isolated digit run occurring in a segment never survives into the
output. -/
theorem c9_no_isolated_digit_run (sp : Option (Str → Option Str))
    (provider : Str → List Str) (text s : Str)
    (h : s ∈ split_into_sentences sp provider text) :
    ¬ hasIsolatedShortDigitRun s := by
  obtain ⟨seg, hseg⟩ := mem_split_into_sentences h
  obtain ⟨hs, -, -⟩ := normalize_sentence_eq_some hseg
  intro hiso
  rw [hs] at hiso
  have h2 := collapseWs_hasIso_transport (stripChars_SSC_hasIso_transport hiso)
  rw [← hasIsolatedRunCtx_false_iff] at h2
  exact digitGo_no_isolated _ false _ (Nat.lt_succ_self _) h2

theorem c9_no_isolated_digit_run_witness :
    ¬ hasIsolatedShortDigitRun "ab cd".data :=
  c9_no_isolated_digit_run none (fun t => [t]) "ab 41 cd".data "ab cd".data
    (by decide)

/-! ### Claims C5, C10: the quote segmenter -/

lemma quote_not_space {q : Char} (hq : isQuoteCh q = true) :
    isSpacePy q = false := by
  simp only [isQuoteCh, Bool.or_eq_true, beq_iff_eq] at hq
  rcases hq with rfl | rfl <;> decide

lemma quote_not_newline {q : Char} (hq : isQuoteCh q = true) :
    (q == '\n') = false := by
  simp only [isQuoteCh, Bool.or_eq_true, beq_iff_eq] at hq
  rcases hq with rfl | rfl <;> decide

lemma stripWs_decomp (l : Str) :
    ∃ A B, l = A ++ stripWs l ++ B ∧
      (∀ c ∈ A, isSpacePy c = true) ∧ (∀ c ∈ B, isSpacePy c = true) := by
  refine ⟨l.takeWhile isSpacePy,
    ((l.dropWhile isSpacePy).reverse.takeWhile isSpacePy).reverse, ?_, ?_, ?_⟩
  · conv_lhs => rw [← List.takeWhile_append_dropWhile (p := isSpacePy) (l := l)]
    rw [List.append_assoc]
    congr 1
    conv_lhs => rw [← List.reverse_reverse (l.dropWhile isSpacePy),
      ← List.takeWhile_append_dropWhile (p := isSpacePy)
        (l := (l.dropWhile isSpacePy).reverse)]
    rw [List.reverse_append]
    rfl
  · intro c hc
    exact List.mem_takeWhile_imp hc
  · intro c hc
    rw [List.mem_reverse] at hc
    exact List.mem_takeWhile_imp hc

lemma stripWs_ne_nil {l : Str} {c : Char} (hc : c ∈ l)
    (hcs : isSpacePy c = false) : stripWs l ≠ [] := by
  intro h
  obtain ⟨A, B, hl, hA, hB⟩ := stripWs_decomp l
  rw [h] at hl
  simp only [List.append_nil] at hl
  rw [hl] at hc
  rcases List.mem_append.mp hc with h1 | h1
  · rw [hA c h1] at hcs
    exact Bool.true_eq_false.mp hcs
  · rw [hB c h1] at hcs
    exact Bool.true_eq_false.mp hcs

lemma scanClose_eq_some {q : Char} :
    ∀ {l int rest : Str}, scanClose q l = some (int, rest) →
      l = int ++ q :: rest ∧ q ∉ int ∧ '\n' ∉ int := by
  intro l
  induction l with
  | nil => intro int rest h; simp [scanClose] at h
  | cons c cs ih =>
    intro int rest h
    simp only [scanClose] at h
    split at h
    · next hcq =>
      simp only [Option.some.injEq, Prod.mk.injEq] at h
      obtain ⟨rfl, rfl⟩ := h
      simp
      exact beq_iff_eq.mp hcq
    · split at h
      · simp at h
      · next hcq hcn =>
        cases hsc : scanClose q cs with
        | none => rw [hsc] at h; simp at h
        | some pr =>
          obtain ⟨int', rest'⟩ := pr
          rw [hsc] at h
          simp only [Option.some.injEq, Prod.mk.injEq] at h
          obtain ⟨h1, h2⟩ := h
          obtain ⟨hcs, hqn, hnn⟩ := ih hsc
          subst h1
          subst h2
          refine ⟨by rw [hcs]; rfl, ?_, ?_⟩
          · simp only [List.mem_cons, not_or]
            exact ⟨fun hce => hcq (by simp [hce]), hqn⟩
          · simp only [List.mem_cons, not_or]
            exact ⟨fun hce => hcn (by simp [← hce]), hnn⟩

lemma scanClose_complete {q : Char} :
    ∀ (int rest : Str), q ∉ int → '\n' ∉ int →
      scanClose q (int ++ q :: rest) = some (int, rest) := by
  intro int
  induction int with
  | nil => intro rest _ _; simp [scanClose]
  | cons c int' ih =>
    intro rest hq hn
    have hcq : (c == q) = false := by
      simp only [beq_eq_false_iff_ne, ne_eq]
      intro hce
      exact hq (List.mem_cons.mpr (Or.inl hce.symm))
    have hcn : (c == '\n') = false := by
      simp only [beq_eq_false_iff_ne, ne_eq]
      intro hce
      exact hn (List.mem_cons.mpr (Or.inl hce.symm))
    have hq' : q ∉ int' := fun hx => hq (List.mem_cons_of_mem c hx)
    have hn' : '\n' ∉ int' := fun hx => hn (List.mem_cons_of_mem c hx)
    simp [scanClose, hcq, hcn, ih rest hq' hn']

lemma scanClose_none_of_not_mem {q : Char} :
    ∀ {l : Str}, q ∉ l → scanClose q l = none := by
  intro l
  induction l with
  | nil => intro _; rfl
  | cons c cs ih =>
    intro hq
    have hcq : (c == q) = false := by
      simp only [beq_eq_false_iff_ne, ne_eq]
      intro hce
      exact hq (List.mem_cons.mpr (Or.inl hce.symm))
    have hq' : q ∉ cs := fun hx => hq (List.mem_cons_of_mem c hx)
    simp [scanClose, hcq, ih hq']

lemma findQuoteMatch_cons_nonquote {c : Char} (hc : isQuoteCh c = false)
    (cs : Str) :
    findQuoteMatch (c :: cs) =
      match findQuoteMatch cs with
      | some (pre, m, rest) => some (c :: pre, m, rest)
      | none => none := by
  simp [findQuoteMatch, hc]

lemma findQuoteMatch_quote_nil {c : Char} : findQuoteMatch [c] = none := by
  simp [findQuoteMatch]

lemma findQuoteMatch_quote_newline {c x : Char} (hc : isQuoteCh c = true)
    (hx : x = '\n') (xs : Str) :
    findQuoteMatch (c :: x :: xs) =
      match findQuoteMatch (x :: xs) with
      | some (pre, m, rest) => some (c :: pre, m, rest)
      | none => none := by
  simp [findQuoteMatch, hc, hx]

lemma findQuoteMatch_quote_scan {c x : Char} (hc : isQuoteCh c = true)
    (hx : ¬x = '\n') {xs int rest : Str}
    (hsc : scanClose c xs = some (int, rest)) :
    findQuoteMatch (c :: x :: xs) = some ([], c :: x :: int ++ [c], rest) := by
  simp [findQuoteMatch, hc, hx, hsc]

lemma findQuoteMatch_quote_noscan {c x : Char} (hc : isQuoteCh c = true)
    (hx : ¬x = '\n') {xs : Str} (hsc : scanClose c xs = none) :
    findQuoteMatch (c :: x :: xs) =
      match findQuoteMatch (x :: xs) with
      | some (pre, m, rest) => some (c :: pre, m, rest)
      | none => none := by
  simp [findQuoteMatch, hc, hx, hsc]

lemma findQuoteMatch_eq_some :
    ∀ {s pre m rest : Str}, findQuoteMatch s = some (pre, m, rest) →
      s = pre ++ m ++ rest ∧
        ∃ q int, isQuoteCh q = true ∧ m = q :: int ++ [q] ∧ int ≠ [] := by
  intro s
  induction s with
  | nil => intro pre m rest h; simp [findQuoteMatch] at h
  | cons c cs ih =>
    intro pre m rest h
    have hshift : ∀ (hm : findQuoteMatch (c :: cs) =
        match findQuoteMatch cs with
        | some (pre, m, rest) => some (c :: pre, m, rest)
        | none => none),
        c :: cs = pre ++ m ++ rest ∧
          ∃ q int, isQuoteCh q = true ∧ m = q :: int ++ [q] ∧ int ≠ [] := by
      intro hm
      rw [hm] at h
      cases hfm : findQuoteMatch cs with
      | none => rw [hfm] at h; simp at h
      | some pr =>
        obtain ⟨pre', m', rest'⟩ := pr
        rw [hfm] at h
        simp only [Option.some.injEq, Prod.mk.injEq] at h
        obtain ⟨h1, h2, h3⟩ := h
        obtain ⟨hs, hqint⟩ := ih hfm
        subst h2
        subst h3
        rw [← h1]
        exact ⟨by rw [hs]; rfl, hqint⟩
    by_cases hc : isQuoteCh c = true
    · cases cs with
      | nil =>
        rw [findQuoteMatch_quote_nil] at h
        simp at h
      | cons x xs =>
        by_cases hx : x = '\n'
        · exact hshift (findQuoteMatch_quote_newline hc hx xs)
        · cases hsc : scanClose c xs with
          | some pr =>
            obtain ⟨int, rest'⟩ := pr
            rw [findQuoteMatch_quote_scan hc hx hsc] at h
            simp only [Option.some.injEq, Prod.mk.injEq] at h
            obtain ⟨h1, h2, h3⟩ := h
            obtain ⟨hxs, hqn, hnn⟩ := scanClose_eq_some hsc
            subst h2
            subst h3
            rw [← h1]
            refine ⟨by rw [hxs]; simp, c, x :: int, hc, by simp, by simp⟩
          | none =>
            exact hshift (findQuoteMatch_quote_noscan hc hx hsc)
    · exact hshift
        (findQuoteMatch_cons_nonquote (Bool.eq_false_iff.mpr hc) cs)

lemma findQuoteMatch_rest_lt {s pre m rest : Str}
    (h : findQuoteMatch s = some (pre, m, rest)) : rest.length < s.length := by
  obtain ⟨hs, q, int, -, hm, -⟩ := findQuoteMatch_eq_some h
  rw [hs, hm]
  simp
  omega

lemma quote_ne_newline {q : Char} (hq : isQuoteCh q = true) : ¬q = '\n' := by
  simp only [isQuoteCh, Bool.or_eq_true, beq_iff_eq] at hq
  rcases hq with rfl | rfl <;> decide

lemma splitGo_match {fuel : Nat} {s pre m rest : Str}
    (h : findQuoteMatch s = some (pre, m, rest)) :
    splitGo (fuel + 1) s =
      (if stripWs pre = [] then [] else [stripWs pre]) ++
        (if stripWs m = [] then [] else [stripWs m]) ++ splitGo fuel rest := by
  simp [splitGo, h]

lemma splitGo_none {fuel : Nat} {s : Str} (h : findQuoteMatch s = none) :
    splitGo (fuel + 1) s = if stripWs s = [] then [] else [stripWs s] := by
  simp [splitGo, h]

lemma splitGo_fuel_irrel :
    ∀ (fuel : Nat) (s : Str) (fuel' : Nat), s.length < fuel → s.length < fuel' →
      splitGo fuel s = splitGo fuel' s := by
  intro fuel
  induction fuel with
  | zero => intro s fuel' h _; omega
  | succ fuel ih =>
    intro s fuel' h h'
    cases fuel' with
    | zero => omega
    | succ fuel' =>
      cases hfm : findQuoteMatch s with
      | none => rw [splitGo_none hfm, splitGo_none hfm]
      | some pr =>
        obtain ⟨pre, m, rest⟩ := pr
        have hlt := findQuoteMatch_rest_lt hfm
        rw [splitGo_match hfm, splitGo_match hfm,
          ih rest fuel' (by omega) (by omega)]

lemma split_quoted_segments_match {s pre m rest : Str}
    (h : findQuoteMatch s = some (pre, m, rest)) :
    split_quoted_segments s =
      (if stripWs pre = [] then [] else [stripWs pre]) ++
        (if stripWs m = [] then [] else [stripWs m]) ++
        split_quoted_segments rest := by
  show splitGo (s.length + 1) s = _
  rw [splitGo_match h,
    splitGo_fuel_irrel s.length rest (rest.length + 1)
      (findQuoteMatch_rest_lt h) (Nat.lt_succ_self _)]
  rfl

lemma split_quoted_segments_none {s : Str} (h : findQuoteMatch s = none) :
    split_quoted_segments s = if stripWs s = [] then [] else [stripWs s] :=
  splitGo_none h

lemma findQuoteMatch_none_of_no_quote :
    ∀ {s : Str}, (∀ c ∈ s, isQuoteCh c = false) → findQuoteMatch s = none := by
  intro s
  induction s with
  | nil => intro _; rfl
  | cons c cs ih =>
    intro hs
    rw [findQuoteMatch_cons_nonquote (hs c (List.mem_cons_self c cs)) cs,
      ih (fun d hd => hs d (List.mem_cons_of_mem c hd))]

lemma findQuoteMatch_clean {q : Char} (hq : isQuoteCh q = true) :
    ∀ (A B C : Str),
      (∀ c ∈ A, isQuoteCh c = false) → B ≠ [] → q ∉ B → '\n' ∉ B →
      findQuoteMatch (A ++ q :: B ++ q :: C) = some (A, q :: B ++ [q], C) := by
  intro A
  induction A with
  | nil =>
    intro B C _ hB hBq hBn
    cases B with
    | nil => exact absurd rfl hB
    | cons x B' =>
      have hx : ¬x = '\n' := fun hxe => hBn (by simp [hxe])
      have hB'q : q ∉ B' := fun hm => hBq (List.mem_cons_of_mem x hm)
      have hB'n : '\n' ∉ B' := fun hm => hBn (List.mem_cons_of_mem x hm)
      have hsc : scanClose q (B' ++ q :: C) = some (B', C) :=
        scanClose_complete B' C hB'q hB'n
      have hres := findQuoteMatch_quote_scan hq hx hsc
      simpa using hres
  | cons a A' ih =>
    intro B C hA hB hBq hBn
    have ha : isQuoteCh a = false := hA a (List.mem_cons_self a A')
    have hrec := ih B C (fun c hc => hA c (List.mem_cons_of_mem a hc)) hB hBq hBn
    show findQuoteMatch (a :: (A' ++ q :: B ++ q :: C)) = _
    rw [findQuoteMatch_cons_nonquote ha, hrec]

lemma findQuoteMatch_single_quote_none {q : Char} (hq : isQuoteCh q = true)
    {C : Str} (hC : ∀ c ∈ C, isQuoteCh c = false) :
    findQuoteMatch (q :: C) = none := by
  cases C with
  | nil => exact findQuoteMatch_quote_nil
  | cons x xs =>
    have hqx : q ∉ xs := fun hm => by
      have h2 := hC q (List.mem_cons_of_mem x hm)
      rw [hq] at h2
      exact Bool.true_eq_false.mp h2
    by_cases hx : x = '\n'
    · rw [findQuoteMatch_quote_newline hq hx xs,
        findQuoteMatch_none_of_no_quote hC]
    · rw [findQuoteMatch_quote_noscan hq hx (scanClose_none_of_not_mem hqx),
        findQuoteMatch_none_of_no_quote hC]

lemma findQuoteMatch_empty_pair {q : Char} (hq : isQuoteCh q = true) :
    ∀ (A : Str) {C : Str}, (∀ c ∈ A, isQuoteCh c = false) →
      (∀ c ∈ C, isQuoteCh c = false) →
      findQuoteMatch (A ++ q :: q :: C) = none := by
  intro A
  induction A with
  | nil =>
    intro C hA hC
    have hqC : q ∉ C := fun hm => by
      have h2 := hC q hm
      rw [hq] at h2
      exact Bool.true_eq_false.mp h2
    simp only [List.nil_append]
    rw [findQuoteMatch_quote_noscan hq (quote_ne_newline hq)
      (scanClose_none_of_not_mem hqC),
      findQuoteMatch_single_quote_none hq hC]
  | cons a A' ih =>
    intro C hA hC
    have ha : isQuoteCh a = false := hA a (List.mem_cons_self a A')
    show findQuoteMatch (a :: (A' ++ q :: q :: C)) = _
    rw [findQuoteMatch_cons_nonquote ha,
      ih (fun c hc => hA c (List.mem_cons_of_mem a hc)) hC]

lemma stripWs_idem (l : Str) : stripWs (stripWs l) = stripWs l :=
  stripWs_eq_self (fun _ ha => stripWs_head ha) (fun _ ha => stripWs_getLast ha)

lemma splitGo_segments :
    ∀ (fuel : Nat) (s : Str), s.length < fuel →
      inOrderInfixes (splitGo fuel s) s ∧
        ∀ t ∈ splitGo fuel s, t ≠ [] ∧ stripWs t = t := by
  intro fuel
  induction fuel with
  | zero => intro s h; omega
  | succ fuel ih =>
    intro s hlen
    cases hfm : findQuoteMatch s with
    | none =>
      rw [splitGo_none hfm]
      split
      · exact ⟨trivial, by simp⟩
      · next hne =>
        obtain ⟨Au, Bu, hdec, -, -⟩ := stripWs_decomp s
        refine ⟨⟨Au, Bu, hdec, trivial⟩, ?_⟩
        intro t ht
        simp at ht
        subst ht
        exact ⟨hne, stripWs_idem s⟩
    | some pr =>
      obtain ⟨pre, m, rest⟩ := pr
      obtain ⟨hs, q, int, hqch, hm, hint⟩ := findQuoteMatch_eq_some hfm
      have hrlt : rest.length < fuel := by
        have := findQuoteMatch_rest_lt hfm
        omega
      obtain ⟨ihOrd, ihT⟩ := ih rest hrlt
      have hmne : m ≠ [] := by rw [hm]; simp
      have hmtrim : stripWs m = m := by
        apply stripWs_eq_self
        · intro a ha
          rw [hm] at ha
          simp at ha
          rw [← ha]
          exact quote_not_space hqch
        · intro a ha
          rw [hm, show (q :: int ++ [q] : Str) = (q :: int) ++ [q] from rfl,
            List.getLast?_concat] at ha
          simp at ha
          rw [← ha]
          exact quote_not_space hqch
      rw [splitGo_match hfm, hmtrim, if_neg hmne]
      constructor
      · split
        · exact ⟨pre, rest, hs, ihOrd⟩
        · next hpne =>
          obtain ⟨Au, Bu, hdec, -, -⟩ := stripWs_decomp pre
          refine ⟨Au, Bu ++ m ++ rest, ?_, Bu, rest, rfl, ihOrd⟩
          conv_lhs => rw [hs, hdec]
          simp
      · intro t ht
        simp only [List.append_assoc, List.mem_append] at ht
        rcases ht with h1 | h2 | h3
        · by_cases hpre : stripWs pre = []
          · rw [if_pos hpre] at h1
            simp at h1
          · rw [if_neg hpre] at h1
            simp at h1
            subst h1
            exact ⟨hpre, stripWs_idem pre⟩
        · simp at h2
          subst h2
          exact ⟨hmne, hmtrim⟩
        · exact ihT t h3

/-- C5: quote segmentation preserves reading order.  For a sentence of the
form `A q B q C` — with `q` a straight quote, `A` and `C` quote-free,
and `B` a non-empty span containing neither `q` nor a newline, whose
surrounding trims are non-empty — the segmenter yields exactly the
trimmed `A`, then the quoted span `q B q`, then the trimmed `C`; and a
sentence with no quote characters yields just its trimmed self (empty
after trimming: nothing). -/
theorem c5_quote_segmentation_order (A B C : Str) (q : Char)
    (hq : isQuoteCh q = true)
    (hA : ∀ c ∈ A, isQuoteCh c = false)
    (hC : ∀ c ∈ C, isQuoteCh c = false)
    (hB : B ≠ []) (hBq : q ∉ B) (hBn : '\n' ∉ B)
    (hAne : stripWs A ≠ []) (hCne : stripWs C ≠ []) :
    split_quoted_segments (A ++ q :: B ++ q :: C) =
        [stripWs A, q :: B ++ [q], stripWs C] ∧
      ∀ s : Str, (∀ c ∈ s, isQuoteCh c = false) →
        split_quoted_segments s =
          if stripWs s = [] then [] else [stripWs s] := by
  have hnoquote : ∀ s : Str, (∀ c ∈ s, isQuoteCh c = false) →
      split_quoted_segments s = if stripWs s = [] then [] else [stripWs s] :=
    fun s hs => split_quoted_segments_none (findQuoteMatch_none_of_no_quote hs)
  refine ⟨?_, hnoquote⟩
  have hmatch := findQuoteMatch_clean hq A B C hA hB hBq hBn
  rw [split_quoted_segments_match hmatch]
  have hmm : stripWs (q :: B ++ [q]) = q :: B ++ [q] := by
    apply stripWs_eq_self
    · intro a ha
      simp at ha
      rw [← ha]
      exact quote_not_space hq
    · intro a ha
      rw [show (q :: B ++ [q] : Str) = (q :: B) ++ [q] from rfl,
        List.getLast?_concat] at ha
      simp at ha
      rw [← ha]
      exact quote_not_space hq
  rw [hmm, if_neg hAne, if_neg (by simp : ¬(q :: B ++ [q] : Str) = []),
    hnoquote C hC, if_neg hCne]
  rfl

theorem c5_quote_segmentation_order_witness :
    split_quoted_segments
        ("그는 ".data ++ '"' :: "좋아".data ++ '"' :: " 말했다".data) =
      [stripWs "그는 ".data, '"' :: "좋아".data ++ ['"'],
        stripWs " 말했다".data] :=
  (c5_quote_segmentation_order "그는 ".data "좋아".data " 말했다".data '"'
    (by decide) (by decide) (by decide) (by decide) (by decide) (by decide)
    (by decide) (by decide)).1

/-- C10: an empty quoted span is never recognised — a sentence `A q q C`
with `A` and `C` quote-free yields one single segment, the trimmed whole
sentence, with the adjacent quote pair still inside it; moreover every
segment emitted by the segmenter, for every input, is a non-empty,
whitespace-trimmed substring, and the segments appear in left-to-right
order as disjoint infixes of the input. -/
theorem c10_empty_quote_pair (A C : Str) (q : Char)
    (hq : isQuoteCh q = true)
    (hA : ∀ c ∈ A, isQuoteCh c = false)
    (hC : ∀ c ∈ C, isQuoteCh c = false) :
    split_quoted_segments (A ++ q :: q :: C) =
        [stripWs (A ++ q :: q :: C)] ∧
      (∀ s t : Str, t ∈ split_quoted_segments s → t ≠ [] ∧ stripWs t = t) ∧
      ∀ s : Str, inOrderInfixes (split_quoted_segments s) s := by
  have hseg : ∀ s : Str, inOrderInfixes (split_quoted_segments s) s ∧
      ∀ t ∈ split_quoted_segments s, t ≠ [] ∧ stripWs t = t :=
    fun s => splitGo_segments (s.length + 1) s (Nat.lt_succ_self _)
  refine ⟨?_, fun s t ht => (hseg s).2 t ht, fun s => (hseg s).1⟩
  rw [split_quoted_segments_none (findQuoteMatch_empty_pair hq A hA hC),
    if_neg (stripWs_ne_nil (show q ∈ A ++ q :: q :: C by simp)
      (quote_not_space hq))]

theorem c10_empty_quote_pair_witness :
    split_quoted_segments ("empty ".data ++ '"' :: '"' :: " pair".data) =
      [stripWs ("empty ".data ++ '"' :: '"' :: " pair".data)] :=
  (c10_empty_quote_pair "empty ".data " pair".data '"' (by decide) (by decide)
    (by decide)).1

/-! ### Claim C4: vocabulary extraction -/

lemma takeWhile_all_append {p : Char → Bool} :
    ∀ {w post : Str}, (∀ c ∈ w, p c = true) →
      (∀ a, post.head? = some a → p a = false) →
      (w ++ post).takeWhile p = w ∧ (w ++ post).dropWhile p = post := by
  intro w
  induction w with
  | nil =>
    intro post _ hpost
    cases post with
    | nil => simp
    | cons d ds =>
      have hd := hpost d rfl
      simp [List.takeWhile_cons, List.dropWhile_cons, hd]
  | cons x w' ih =>
    intro post hw hpost
    have hx : p x = true := hw x (List.mem_cons_self x w')
    obtain ⟨h1, h2⟩ := ih (fun c hc => hw c (List.mem_cons_of_mem x hc)) hpost
    simp [List.takeWhile_cons, List.dropWhile_cons, hx, h1, h2]

lemma dropWhile_cons_pos {p : Char → Bool} {x : Char} (hx : p x = true)
    (l : Str) : (x :: l).dropWhile p = l.dropWhile p := by
  simp [List.dropWhile_cons, hx]

lemma dropWhile_cons_neg {p : Char → Bool} {x : Char} (hx : p x = false)
    (l : Str) : (x :: l).dropWhile p = x :: l := by
  simp [List.dropWhile_cons, hx]

lemma dropWhile_append_of_last {p : Char → Bool} :
    ∀ {A : Str} {a : Char} (rest : Str),
      A.getLast? = some a → p a = false →
      (A ++ rest).dropWhile p = A.dropWhile p ++ rest ∧
        (A.dropWhile p).getLast? = some a := by
  intro A
  induction A with
  | nil => intro a rest ha _; simp at ha
  | cons x A' ih =>
    intro a rest ha hpa
    cases A' with
    | nil =>
      simp at ha
      subst ha
      simp [List.dropWhile_cons, hpa]
    | cons y A'' =>
      rw [List.getLast?_cons_cons] at ha
      by_cases hx : p x = true
      · obtain ⟨hrec1, hrec2⟩ := ih rest ha hpa
        refine ⟨?_, ?_⟩
        · rw [show ((x :: y :: A'') ++ rest : Str) = x :: ((y :: A'') ++ rest)
            from rfl, dropWhile_cons_pos hx, dropWhile_cons_pos hx, hrec1]
        · rw [dropWhile_cons_pos hx]
          exact hrec2
      · have hxf : p x = false := Bool.eq_false_iff.mpr hx
        refine ⟨?_, ?_⟩
        · rw [show ((x :: y :: A'') ++ rest : Str) = x :: ((y :: A'') ++ rest)
            from rfl, dropWhile_cons_neg hxf, dropWhile_cons_neg hxf]
          rfl
        · rw [dropWhile_cons_neg hxf, List.getLast?_cons_cons]
          exact ha

lemma mem_hangulGo :
    ∀ (fuel : Nat) (l : Str), l.length < fuel → ∀ w : Str,
      w ∈ hangulGo fuel l ↔ isMaximalHangulRun w l := by
  intro fuel
  induction fuel with
  | zero => intro l h; omega
  | succ fuel ih =>
    intro l hlen w
    cases l with
    | nil =>
      rw [show hangulGo (fuel + 1) [] = [] from rfl]
      constructor
      · intro h; simp at h
      · rintro ⟨hne, -, pre, post, heq, -, -⟩
        rw [eq_comm, List.append_eq_nil, List.append_eq_nil] at heq
        exact absurd heq.1.2 hne
    | cons c cs =>
      have hcs : cs.length < fuel := by simp at hlen; omega
      by_cases hc : isHangul c = true
      · have hdl : (cs.dropWhile isHangul).length < fuel :=
          lt_of_le_of_lt (List.dropWhile_suffix _).length_le hcs
        rw [show hangulGo (fuel + 1) (c :: cs) =
            (c :: cs.takeWhile isHangul) :: hangulGo fuel (cs.dropWhile isHangul)
          by simp [hangulGo, hc]]
        rw [List.mem_cons]
        constructor
        · rintro (rfl | hmem)
          · refine ⟨by simp, ?_, [], cs.dropWhile isHangul, ?_, ?_, ?_⟩
            · intro x hx
              rcases List.mem_cons.mp hx with rfl | hx2
              · exact hc
              · exact List.mem_takeWhile_imp hx2
            · simp [List.takeWhile_append_dropWhile]
            · intro a ha; simp at ha
            · intro a ha
              exact dropWhile_head_false isHangul cs a ha
          · obtain ⟨hne, hall, pre', post', heq', hpre', hpost'⟩ :=
              (ih _ hdl w).mp hmem
            cases hp' : pre' with
            | nil =>
              exfalso
              cases w with
              | nil => exact hne rfl
              | cons w0 w' =>
                rw [hp'] at heq'
                have hh : (cs.dropWhile isHangul).head? = some w0 := by
                  rw [heq']; rfl
                have := dropWhile_head_false isHangul cs w0 hh
                rw [hall w0 (List.mem_cons_self w0 w')] at this
                exact Bool.true_eq_false.mp this
            | cons p' ps' =>
              refine ⟨hne, hall, (c :: cs.takeWhile isHangul) ++ pre', post',
                ?_, ?_, hpost'⟩
              · conv_lhs => rw [show (c :: cs : Str) =
                  c :: (cs.takeWhile isHangul ++ cs.dropWhile isHangul) by
                    rw [List.takeWhile_append_dropWhile]]
                rw [heq']
                simp
              · intro a ha
                rw [List.getLast?_append, hp'] at ha
                cases hg : (p' :: ps').getLast? with
                | none => simp [List.getLast?_eq_none_iff] at hg
                | some b =>
                  rw [hg] at ha
                  simp at ha
                  rw [← ha]
                  exact hpre' b (by rw [hp']; exact hg)
        · rintro ⟨hne, hall, pre, post, heq, hpre, hpost⟩
          cases pre with
          | nil =>
            left
            cases w with
            | nil => exact absurd rfl hne
            | cons w0 w' =>
              simp only [List.nil_append] at heq
              have hw0 : w0 = c := by
                have := congrArg List.head? heq
                simpa using this.symm
              subst hw0
              have hcs' : cs = w' ++ post := by
                have := congrArg List.tail heq
                simpa using this
              obtain ⟨h1, -⟩ := takeWhile_all_append
                (fun x hx => hall x (List.mem_cons_of_mem w0 hx)) hpost
              rw [hcs', h1]
          | cons p pre₂ =>
            right
            have hpc : p = c := by
              have := congrArg List.head? heq
              simpa using this.symm
            have hcs' : cs = pre₂ ++ (w ++ post) := by
              have := congrArg List.tail heq
              simp at this
              rw [this]
            cases pre₂ with
            | nil =>
              exfalso
              have := hpre p (by simp)
              rw [hpc, hc] at this
              exact Bool.true_eq_false.mp this
            | cons p₂ ps₂ =>
              have hg2 : ∃ a, (p₂ :: ps₂).getLast? = some a := by
                cases hgg : (p₂ :: ps₂).getLast? with
                | none => simp [List.getLast?_eq_none_iff] at hgg
                | some b => exact ⟨b, rfl⟩
              obtain ⟨a, hga⟩ := hg2
              have hana : isHangul a = false := by
                apply hpre
                rw [List.getLast?_cons_cons]
                exact hga
              obtain ⟨hdw, hlast⟩ :=
                dropWhile_append_of_last (p := isHangul) (w ++ post) hga hana
              apply (ih _ hdl w).mpr
              refine ⟨hne, hall, (p₂ :: ps₂).dropWhile isHangul, post, ?_, ?_,
                hpost⟩
              · rw [hcs', hdw]
                simp
              · intro b hb
                rw [hlast] at hb
                simp at hb
                rw [← hb]
                exact hana
      · rw [show hangulGo (fuel + 1) (c :: cs) = hangulGo fuel cs by
          simp [hangulGo, hc]]
        rw [ih cs hcs w]
        constructor
        · rintro ⟨hne, hall, pre', post', heq', hpre', hpost'⟩
          refine ⟨hne, hall, c :: pre', post', by rw [heq']; rfl, ?_, hpost'⟩
          intro a ha
          cases pre' with
          | nil =>
            simp at ha
            rw [← ha]
            exact Bool.eq_false_iff.mpr hc
          | cons q qs =>
            rw [List.getLast?_cons_cons] at ha
            exact hpre' a ha
        · rintro ⟨hne, hall, pre, post, heq, hpre, hpost⟩
          cases pre with
          | nil =>
            exfalso
            cases w with
            | nil => exact hne rfl
            | cons w0 w' =>
              have hw0 : w0 = c := by
                have := congrArg List.head? heq
                simpa using this.symm
              have := hall w0 (List.mem_cons_self w0 w')
              rw [hw0] at this
              exact hc this
          | cons p pre₂ =>
            have hcs' : cs = pre₂ ++ w ++ post := by
              have := congrArg List.tail heq
              simpa using this
            refine ⟨hne, hall, pre₂, post, hcs', ?_, hpost⟩
            intro a ha
            apply hpre
            cases pre₂ with
            | nil => simp at ha
            | cons q qs =>
              rw [List.getLast?_cons_cons]
              exact ha

lemma mem_hangulRuns {l w : Str} :
    w ∈ hangulRuns l ↔ isMaximalHangulRun w l :=
  mem_hangulGo (l.length + 1) l (Nat.lt_succ_self _) w

/-- C4: `extract_vocabulary` returns exactly the maximal Hangul-syllable
runs of the cleaned text whose length is at least `max 1 min_length`,
strictly sorted in ascending code-point (lexicographic) order — hence
duplicate-free — and a `min_length` below one gives the same result as
one, never an error. -/
theorem c4_extract_vocabulary_correct (sp : Option (Str → Option Str))
    (t : Str) (m : Int) :
    (∀ w : Str, w ∈ extract_vocabulary sp t m ↔
        isMaximalHangulRun w (clean_text sp t) ∧ max 1 m ≤ (w.length : Int)) ∧
      (extract_vocabulary sp t m).Pairwise (· < ·) ∧
      (m < 1 → extract_vocabulary sp t m = extract_vocabulary sp t 1) := by
  refine ⟨?_, ?_, ?_⟩
  · intro w
    unfold extract_vocabulary
    rw [(List.perm_insertionSort _ _).mem_iff, List.mem_dedup, List.mem_filter,
      mem_hangulRuns]
    simp only [decide_eq_true_eq]
  · unfold extract_vocabulary
    have hs : List.Sorted (· ≤ ·)
        ((((hangulRuns (clean_text sp t)).filter
          (fun w => max 1 m ≤ (w.length : Int))).dedup).insertionSort (· ≤ ·)) :=
      List.sorted_insertionSort _ _
    have hn : ((((hangulRuns (clean_text sp t)).filter
        (fun w => max 1 m ≤ (w.length : Int))).dedup).insertionSort
          (· ≤ ·)).Nodup :=
      (List.perm_insertionSort _ _).nodup_iff.mpr (List.nodup_dedup _)
    exact (List.Pairwise.and hs hn).imp fun hab => lt_of_le_of_ne hab.1 hab.2
  · intro hm
    unfold extract_vocabulary
    have h1 : max 1 m = (1 : Int) := max_eq_left (le_of_lt hm)
    simp only [h1, max_self]

theorem c4_extract_vocabulary_correct_witness :
    extract_vocabulary none "옷 하나".data (-2) =
      extract_vocabulary none "옷 하나".data 1 :=
  (c4_extract_vocabulary_correct none "옷 하나".data (-2)).2.2 (by decide)


